import Mathlib

/-!
Verification development for the DevTools file-manipulation module
(src/DevTools/file_manipulation.py).

The module is embedded shallowly:

* Strings are `List Char` (`Str`); file contents are strings; a file that
  cannot be opened is modelled as `Option.none` contents.
* `create_cfg` is the pure function from a configuration dictionary to the
  text it writes (the dictionary is an insertion-ordered association list,
  matching Python dict iteration order).
* `read_cfg` delegates to Python's `configparser.ConfigParser`; the parts of
  `ConfigParser._read`, `ConfigParser.options`, `ConfigParser.get` and
  `BasicInterpolation` that the call exercises (default settings: `strict`,
  `empty_lines_in_values`, comment prefixes `#`/`;`, delimiters `=`/`:`,
  `optionxform = str.lower`, basic `%`-interpolation) are embedded here
  following the CPython implementation.  ASCII text is modelled exactly;
  the whitespace and lowercasing tables are the ASCII fragments of Python's.
* `backup` is split into its pure path computation (timestamp supplied as an
  argument) and its effect sequence over a small world model (source
  readability, destination-directory existence, permission to create it).
* `check_hash` takes the SHA-256 digest primitive of `hashlib` as an explicit
  function argument (an abstract digest of the full byte content) and is
  otherwise the literal control flow of the source, including the
  `UnboundLocalError` first-iteration sentinel (modelled by the `Option`
  accumulator) and the `files[0]` access that fails on an empty argument list.
-/

/-- Strings as lists of characters. -/
abbrev Str := List Char

/-- Coerce a Lean string literal to the character-list representation. -/
def strL (s : String) : Str := s.data

/-- ASCII fragment of Python's `str.strip` whitespace set: space, `\t`,
`\n`, `\r`, `\x0b`, `\x0c`, and the separator controls `\x1c`-`\x1f`,
exactly the characters marked in CPython's `_Py_ascii_whitespace` table
(also the ASCII characters matched by the regex class `\s`). -/
def isSpaceC (c : Char) : Bool :=
  c = ' ' || c = '\t' || c = '\n' || c = '\r' || c = Char.ofNat 11 || c = Char.ofNat 12
    || c = Char.ofNat 28 || c = Char.ofNat 29 || c = Char.ofNat 30 || c = Char.ofNat 31

/-- Python `str.lstrip()` on ASCII text. -/
def lstrip (s : Str) : Str := s.dropWhile isSpaceC

/-- Python `str.rstrip()` on ASCII text. -/
def rstrip (s : Str) : Str := (s.reverse.dropWhile isSpaceC).reverse

/-- Python `str.strip()` on ASCII text. -/
def strip (s : Str) : Str := lstrip (rstrip s)

/-- Is an ASCII uppercase letter (the case `str.lower` changes). -/
def isUpperC (c : Char) : Bool := decide (65 ≤ c.toNat) && decide (c.toNat ≤ 90)

/-- ASCII fragment of Python's `str.lower` on one character. -/
def lowerC (c : Char) : Char :=
  if isUpperC c then Char.ofNat (c.toNat + 32) else c

/-- ASCII fragment of Python's `str.lower` (the default `optionxform`). -/
def lowerStr (s : Str) : Str := s.map lowerC

/-- `create_cfg` (file_manipulation.py lines 33-37): the text written for a
configuration dictionary.  For each section, in iteration order, it writes
a blank line, a `[section]` line, and one `option=value` line per option. -/
def create_cfg (cfg_dict : List (Str × List (Str × Str))) : Str :=
  cfg_dict.flatMap (fun sec =>
    '\n' :: '[' :: sec.1 ++ ']' :: '\n' ::
      sec.2.flatMap (fun ov => ov.1 ++ '=' :: ov.2 ++ ['\n']))

/-- Universal-newline translation performed by text-mode `open` when
`ConfigParser.read` reads the file: `\r\n` and lone `\r` become `\n`. -/
def univNl : Str → Str
  | [] => []
  | c :: rest =>
    if c = '\r' then
      match rest with
      | [] => ['\n']
      | c2 :: rest2 =>
        if c2 = '\n' then '\n' :: univNl rest2
        else '\n' :: univNl (c2 :: rest2)
    else c :: univNl rest

/-- Split on `\n`; the result always has one more piece than separators. -/
def splitNl : Str → List Str
  | [] => [[]]
  | c :: rest =>
    if c = '\n' then [] :: splitNl rest
    else
      match splitNl rest with
      | [] => [[c]]
      | l :: ls => (c :: l) :: ls

/-- The lines Python file iteration yields (after newline translation):
splitting on `\n` with no phantom empty line after a trailing newline. -/
def pyLines (s : Str) : List Str :=
  let l := splitNl (univNl s)
  if l.getLast? = some [] then l.dropLast else l

/-- First index of a character in a string, counted from the right
(Python `str.rindex`), as an option. -/
def lastIdxOf (c : Char) : Str → Option Nat
  | [] => none
  | a :: rest =>
    match lastIdxOf c rest with
    | some i => some (i + 1)
    | none => if a = c then some 0 else none

/-- Association-list lookup (first match wins, like a Python dict). -/
def alookup (k : Str) : List (Str × β) → Option β
  | [] => none
  | e :: rest => if e.1 = k then some e.2 else alookup k rest

/-- Association-list assignment: replaces the first entry for the key in
place, appends at the end when the key is new (Python dict assignment). -/
def aset (k : Str) (v : β) : List (Str × β) → List (Str × β)
  | [] => [(k, v)]
  | e :: rest => if e.1 = k then (k, v) :: rest else e :: aset k v rest

/-- Association-list in-place modification; identity when the key is absent. -/
def amodify (k : Str) (f : β → β) : List (Str × β) → List (Str × β)
  | [] => []
  | e :: rest => if e.1 = k then (e.1, f e.2) :: rest else e :: amodify k f rest

/-- `ConfigParser.SECTCRE` applied with `re.match`: the pattern
`\[(?P<header>.+)\]` on a single line.  The greedy `.+` makes the header
run to the last `]` of the line; a match needs a leading `[` and a `]`
preceded by at least one header character. -/
def sectMatch (v : Str) : Option Str :=
  match v with
  | [] => none
  | c :: rest =>
    if c = '[' then
      match lastIdxOf ']' rest with
      | some i => if 1 ≤ i then some (rest.take i) else none
      | none => none
    else none

/-- Index of the first `=` or `:` (the default `delimiters`). -/
def firstDelimIdx : Str → Option Nat
  | [] => none
  | c :: rest =>
    if c = '=' || c = ':' then some 0
    else (firstDelimIdx rest).map (fun i => i + 1)

/-- `ConfigParser.OPTCRE` applied with `re.match`: the pattern
`(?P<option>.*?)\s*(?P<vi>=|:)\s*(?P<value>.*)$` on a stripped line.  The
non-greedy option group splits at the first delimiter; surrounding
whitespace is absorbed by the `\s*` groups. -/
def optMatch (v : Str) : Option (Str × Str) :=
  match firstDelimIdx v with
  | some k => some (rstrip (v.take k), lstrip (v.drop (k + 1)))
  | none => none

/-- The name of `ConfigParser`'s special default section. -/
def DEFAULTSECT : Str := strL "DEFAULT"

/-- Errors the `read_cfg` call can propagate from `configparser`. -/
inductive CfgError where
  | duplicateSection
  | duplicateOption
  | missingSectionHeader
  | parsingError
  | noSection
  | noOption
  | interpolationSyntax
  | interpolationMissingOption
  | interpolationDepth
deriving DecidableEq, Repr

/-- State of `ConfigParser._read` while scanning lines.  Option values are
accumulated as lists of pieces (`cursect[optname]` is a Python list until
`_join_multiline_values` runs).  `cursect = some DEFAULTSECT` denotes the
defaults table; otherwise it names an entry of `sections`. -/
structure PState where
  defaults : List (Str × List Str)
  sections : List (Str × List (Str × List Str))
  cursect : Option Str
  optname : Option Str
  indent : Nat
  hasErr : Bool
deriving DecidableEq, Repr

/-- The freshly constructed parser. -/
def initPState : PState :=
  { defaults := [], sections := [], cursect := none, optname := none,
    indent := 0, hasErr := false }

/-- The option table `cursect` currently refers to, if any. -/
def getCurOpts (st : PState) : Option (List (Str × List Str)) :=
  match st.cursect with
  | none => none
  | some s => if s = DEFAULTSECT then some st.defaults else alookup s st.sections

/-- Write back the option table `cursect` refers to. -/
def setCurOpts (st : PState) (opts : List (Str × List Str)) : PState :=
  match st.cursect with
  | none => st
  | some s =>
    if s = DEFAULTSECT then { st with defaults := opts }
    else { st with sections := aset s opts st.sections }

/-- `cursect[optname].append(piece)`: push one more piece onto the current
option's value list (no effect when the state does not point at one). -/
def appendCurVal (st : PState) (o : Str) (piece : Str) : PState :=
  match getCurOpts st with
  | some opts => setCurOpts st (amodify o (fun l => l ++ [piece]) opts)
  | none => st

/-- Does the stripped line start with a full-line comment prefix (`#`/`;`)? -/
def isCommentLine (stripped : Str) : Bool :=
  match stripped with
  | c :: _ => c = '#' || c = ';'
  | [] => false

/-- Handling of one matched option line in `ConfigParser._read`: an empty
option group records a deferred `ParsingError`; the name is
`optionxform(option.rstrip())`; a duplicate in the current table is a
strict-mode `DuplicateOptionError`; otherwise `cursect[optname] = [optval]`
with the value stripped. -/
def stepOption (st : PState) (optRaw valRaw : Str) : Except CfgError PState :=
  let st2 := if optRaw.isEmpty then { st with hasErr := true } else st
  let oname := lowerStr (rstrip optRaw)
  match getCurOpts st2 with
  | some opts =>
    if (alookup oname opts).isSome then .error .duplicateOption
    else
      .ok { setCurOpts st2 (opts ++ [(oname, [strip valRaw])]) with
              optname := some oname }
  | none => .ok st2

/-- One iteration of the line loop of `ConfigParser._read` (CPython),
with the default settings `read_cfg` uses: no inline comment prefixes,
`empty_lines_in_values = True`, `strict = True`, `allow_no_value = False`.
Fatal errors (`MissingSectionHeaderError`, the strict duplicate errors) are
raised immediately; a malformed option line only sets the deferred
`ParsingError` flag. -/
def stepLine (st : PState) (line : Str) : Except CfgError PState :=
  let stripped := strip line
  let comment := isCommentLine stripped
  let value := if comment then [] else stripped
  if value.isEmpty then
    if comment then .ok st
    else
      match st.cursect, st.optname with
      | some _, some o => if o.isEmpty then .ok st else .ok (appendCurVal st o [])
      | _, _ => .ok st
  else
    let curIndent := line.findIdx (fun c => !isSpaceC c)
    let isCont := st.cursect.isSome &&
      (match st.optname with | some o => !o.isEmpty | none => false) &&
      decide (st.indent < curIndent)
    if isCont then
      match st.optname with
      | some o => .ok (appendCurVal st o value)
      | none => .ok st
    else
      let st1 := { st with indent := curIndent }
      match sectMatch value with
      | some header =>
        if header = DEFAULTSECT then
          .ok { st1 with cursect := some DEFAULTSECT, optname := none }
        else if (alookup header st1.sections).isSome then
          .error .duplicateSection
        else
          .ok { st1 with sections := st1.sections ++ [(header, [])],
                         cursect := some header, optname := none }
      | none =>
        match st1.cursect with
        | none => .error .missingSectionHeader
        | some _ =>
          match optMatch value with
          | some (optRaw, valRaw) => stepOption st1 optRaw valRaw
          | none => .ok { st1 with hasErr := true }

/-- Run `stepLine` over all lines of the file. -/
def readLines : List Str → PState → Except CfgError PState
  | [], st => .ok st
  | l :: ls, st =>
    match stepLine st l with
    | .ok st2 => readLines ls st2
    | .error e => .error e

/-- Python `'\n'.join(pieces)`. -/
def joinPieces : List Str → Str
  | [] => []
  | x :: rest =>
    match rest with
    | [] => x
    | _ :: _ => x ++ '\n' :: joinPieces rest

/-- `ConfigParser._join_multiline_values` on one value:
`'\n'.join(pieces).rstrip()`. -/
def joinVal (pieces : List Str) : Str := rstrip (joinPieces pieces)

/-- Join the accumulated pieces of every option of one table. -/
def joinOpts (l : List (Str × List Str)) : List (Str × Str) :=
  l.map (fun p => (p.1, joinVal p.2))

/-- Join the accumulated pieces across all sections. -/
def joinSecs (l : List (Str × List (Str × List Str))) :
    List (Str × List (Str × Str)) :=
  l.map (fun p => (p.1, joinOpts p.2))

/-- A parsed configuration: the defaults table and the named sections,
both in insertion order, with multiline values joined. -/
structure Parsed where
  defaults : List (Str × Str)
  sections : List (Str × List (Str × Str))
deriving DecidableEq, Repr

/-- `config.read(file)`: a missing/unopenable file (`none`) is silently
skipped and leaves the parser empty; otherwise the lines are parsed and the
deferred `ParsingError` is raised after `_join_multiline_values`. -/
def config_read (contents : Option Str) : Except CfgError Parsed :=
  match contents with
  | none => .ok { defaults := [], sections := [] }
  | some s =>
    match readLines (pyLines s) initPState with
    | .error e => .error e
    | .ok st =>
      if st.hasErr then .error .parsingError
      else .ok { defaults := joinOpts st.defaults, sections := joinSecs st.sections }

/-- Scanner mode of `BasicInterpolation._interpolate_some`: either plain
text, or inside a `%(...)` reference accumulating the variable name
(the `[^)]+` group of `_KEYCRE`). -/
inductive IMode where
  | plain
  | name (acc : Str)

/-- One level of `BasicInterpolation._interpolate_some` (CPython): scan for
`%`; `%%` emits a literal `%`; `%(name)s` looks `optionxform(name)` up in
the lookup map and, when the value itself contains `%`, interpolates it one
level deeper via `recur`; any other use of `%` is an
`InterpolationSyntaxError` (a `_KEYCRE` mismatch raises the same class). -/
def interpInner (mp : List (Str × Str)) (recur : Str → Except CfgError Str) :
    IMode → Str → Except CfgError Str
  | .plain, [] => .ok []
  | .plain, c :: rest =>
    if c = '%' then
      match rest with
      | [] => .error .interpolationSyntax
      | c2 :: rest2 =>
        if c2 = '%' then
          match interpInner mp recur .plain rest2 with
          | .ok t => .ok ('%' :: t)
          | .error e => .error e
        else if c2 = '(' then interpInner mp recur (.name []) rest2
        else .error .interpolationSyntax
    else
      match interpInner mp recur .plain rest with
      | .ok t => .ok (c :: t)
      | .error e => .error e
  | .name _, [] => .error .interpolationSyntax
  | .name acc, c :: rest =>
    if c = ')' then
      match rest with
      | [] => .error .interpolationSyntax
      | c2 :: rest2 =>
        if c2 = 's' then
          if acc.isEmpty then .error .interpolationSyntax
          else
            match alookup (lowerStr acc) mp with
            | none => .error .interpolationMissingOption
            | some v =>
              if v.contains '%' then
                match recur v with
                | .error e => .error e
                | .ok ve =>
                  match interpInner mp recur .plain rest2 with
                  | .ok t => .ok (ve ++ t)
                  | .error e => .error e
              else
                match interpInner mp recur .plain rest2 with
                | .ok t => .ok (v ++ t)
                | .error e => .error e
        else .error .interpolationSyntax
    else interpInner mp recur (.name (acc ++ [c])) rest

/-- `BasicInterpolation` with the recursion depth made explicit: entering a
level with no budget left is `InterpolationDepthError` (CPython checks
`depth > MAX_INTERPOLATION_DEPTH` on entry; the top-level call enters at
depth 1 with `MAX_INTERPOLATION_DEPTH = 10`, hence budget 10). -/
def interpolate (mp : List (Str × Str)) : Nat → Str → Except CfgError Str
  | 0, _ => .error .interpolationDepth
  | fuel + 1, s => interpInner mp (interpolate mp fuel) .plain s

/-- `ConfigParser.options(section)`: a copy of the section's table updated
with `defaults` — the section's keys first, then the defaults' new keys. -/
def optionKeys (defaults opts : List (Str × Str)) : List Str :=
  opts.map Prod.fst ++
    (defaults.map Prod.fst).filter (fun k => (alookup k opts).isNone)

/-- `ConfigParser.get(section, option)` with `BasicInterpolation.before_get`:
the raw value is looked up through the chain map (section table first, then
defaults) under `optionxform`, then `%`-interpolated with that same map. -/
def cfg_get (p : Parsed) (sec opt : Str) : Except CfgError Str :=
  let sopts :=
    if sec = DEFAULTSECT then some [] else alookup sec p.sections
  match sopts with
  | none => .error .noSection
  | some opts =>
    let mp := opts ++ p.defaults
    match alookup (lowerStr opt) mp with
    | none => .error .noOption
    | some raw => interpolate mp 10 raw

/-- The inner loop of `read_cfg`: `config.get` on each option name of one
section, building `options_dict` in iteration order. -/
def getOptions (p : Parsed) (sec : Str) :
    List Str → Except CfgError (List (Str × Str))
  | [] => .ok []
  | o :: rest =>
    match cfg_get p sec o with
    | .error e => .error e
    | .ok v =>
      match getOptions p sec rest with
      | .error e => .error e
      | .ok vs => .ok ((o, v) :: vs)

/-- The outer loop of `read_cfg`: one entry of `sections_dict` per parsed
section, in order. -/
def getSections (p : Parsed) :
    List (Str × List (Str × Str)) →
      Except CfgError (List (Str × List (Str × Str)))
  | [] => .ok []
  | sp :: rest =>
    match getOptions p sp.1 (optionKeys p.defaults sp.2) with
    | .error e => .error e
    | .ok vals =>
      match getSections p rest with
      | .error e => .error e
      | .ok others => .ok ((sp.1, vals) :: others)

/-- `read_cfg` (file_manipulation.py lines 40-88): parse the file with a
fresh `ConfigParser`, then rebuild the nested dictionary by iterating
`config.sections()`, `config.options(section)` and
`config.get(section, option)`.  `none` contents model a file that does not
exist (silently skipped by `config.read`). -/
def read_cfg (contents : Option Str) :
    Except CfgError (List (Str × List (Str × Str))) :=
  match config_read contents with
  | .error e => .error e
  | .ok p => getSections p p.sections

deriving instance DecidableEq for Except

/-- Extension extraction in `backup` (lines 129-137):
`file[file.rindex('.'):]`, with `ValueError` giving the empty string. -/
def extensionOf (file : Str) : Str :=
  match lastIdxOf '.' file with
  | some i => file.drop i
  | none => []

/-- The separator-normalization condition of `backup` (lines 139-140):
`len(output_path) > 0 and (output_path[-1] != '\\' or output_path[-1] != '/')`. -/
def sepCond (output_path : Str) : Bool :=
  decide (0 < output_path.length) &&
    (!(output_path.getLast? == some '\\') || !(output_path.getLast? == some '/'))

/-- The output-path normalization of `backup` (lines 139-141). -/
def normalizeOutput (output_path : Str) : Str :=
  if sepCond output_path then output_path ++ ['/'] else output_path

/-- World model for `backup`'s effects: whether the source file is readable,
whether the destination directory exists, and whether the process may create
directories there. -/
structure World where
  srcOk : Bool
  outDirExists : Bool
  mkdirPerm : Bool
deriving DecidableEq, Repr

/-- Python exceptions `backup` can encounter. -/
inductive PyErr where
  | fileNotFound
  | permissionError
  | fileExists
deriving DecidableEq, Repr

/-- Observable events of one `backup` invocation. -/
inductive Ev where
  | copy (ok : Bool)
  | mkdir (ok : Bool)
  | printMsg
deriving DecidableEq, Repr

/-- `shutil.copy(file, output_path + backup_name)`: raises
`FileNotFoundError` when the source is unreadable or the destination
directory is missing. -/
def copy_err (w : World) : Option PyErr :=
  if w.srcOk && w.outDirExists then none else some .fileNotFound

/-- `os.makedirs(output_path)`: `FileExistsError` when the directory already
exists, `PermissionError` without permission, otherwise creates it. -/
def makedirs_run (w : World) : World × Option PyErr :=
  if w.outDirExists then (w, some .fileExists)
  else if !w.mkdirPerm then (w, some .permissionError)
  else ({ w with outDirExists := true }, none)

/-- The `finally` clause (line 154-155): the copy is attempted once more
unconditionally.  If it raises, its exception replaces any pending one;
if it completes, a pending exception resumes its propagation. -/
def finally_copy (w : World) (pending : Option PyErr) : List Ev × Option PyErr :=
  match copy_err w with
  | none => ([.copy true], pending)
  | some e => ([.copy false], some e)

/-- The `try`/`except FileNotFoundError`/`finally` block of `backup`
(lines 143-155), as the event trace and the exception that escapes. -/
def backup_run (w : World) : List Ev × Option PyErr :=
  match copy_err w with
  | none =>
    let fr := finally_copy w none
    (.copy true :: fr.1, fr.2)
  | some _ =>
    let mr := makedirs_run w
    match mr.2 with
    | none =>
      let fr := finally_copy mr.1 none
      (.copy false :: .mkdir true :: fr.1, fr.2)
    | some .permissionError =>
      let fr := finally_copy mr.1 none
      (.copy false :: .mkdir false :: .printMsg :: fr.1, fr.2)
    | some e =>
      let fr := finally_copy mr.1 (some e)
      (.copy false :: .mkdir false :: fr.1, fr.2)

/-- `backup` (lines 91-155): the destination path it computes (`now` stands
for `datetime.now().strftime("%Y-%m-%d %Hh%M")`) together with the events
and outcome of the copy block. -/
def backup (now file output_path backup_name : Str) (w : World) :
    Str × List Ev × Option PyErr :=
  let name := if backup_name.isEmpty then now ++ extensionOf file else backup_name
  let outp := normalizeOutput output_path
  (outp ++ name, backup_run w)

/-- Count the copy attempts in a trace. -/
def countCopies (evs : List Ev) : Nat :=
  (evs.filter (fun e => match e with | .copy _ => true | _ => false)).length

/-- Result of `check_hash`: a hex digest string for one file, a boolean
verdict for several. -/
inductive HashResult where
  | hex (s : Str)
  | bool (b : Bool)
deriving DecidableEq, Repr

/-- Errors `check_hash` can raise: a file-access error from `open`, or the
`IndexError` from `files[0]` on an empty argument tuple. -/
inductive HashError where
  | ioError
  | indexError
deriving DecidableEq, Repr

/-- Lowercase hexadecimal digits (as produced by `hexdigest`). -/
def hexDigitC (n : Nat) : Char := (strL "0123456789abcdef").getD n '0'

/-- `hashlib`'s `hexdigest()`: two lowercase hex digits per digest byte. -/
def hexdigest (d : List Nat) : Str :=
  d.flatMap (fun b => [hexDigitC (b / 16 % 16), hexDigitC (b % 16)])

/-- The digest a file would hash to: file contents looked up in `fs`
(`none` = unreadable), then digested with `sha` (the `hashlib.sha256`
primitive, passed in explicitly). -/
def digestOf (sha : List Nat → List Nat) (fs : Str → Option (List Nat))
    (f : Str) : Option (List Nat) :=
  (fs f).map sha

/-- The multi-file loop of `check_hash` (lines 194-207).  The accumulator
models the `hash` local: `none` while the variable is still unbound, so the
comparison `hash == hasher.digest()` raises `UnboundLocalError` on the first
iteration and the handler seeds `hash` with the first digest. -/
def checkLoop (sha : List Nat → List Nat) (fs : Str → Option (List Nat))
    (h : Option (List Nat)) : List Str → Except HashError HashResult
  | [] => .ok (.bool true)
  | f :: rest =>
    match fs f with
    | none => .error .ioError
    | some content =>
      match h with
      | none => checkLoop sha fs (some (sha content)) rest
      | some h0 =>
        if h0 = sha content then checkLoop sha fs (some h0) rest
        else .ok (.bool false)

/-- `check_hash` (lines 158-214): with more than one path, compare raw
digests against the first; otherwise open `files[0]` (an `IndexError` when
the variadic tuple is empty) and return its hex digest. -/
def check_hash (sha : List Nat → List Nat) (fs : Str → Option (List Nat))
    (files : List Str) : Except HashError HashResult :=
  if 1 < files.length then checkLoop sha fs none files
  else
    match files with
    | [] => .error .indexError
    | f :: _ =>
      match fs f with
      | none => .error .ioError
      | some content => .ok (.hex (hexdigest (sha content)))

/-! ## Helper lemmas -/

theorem getLast?_some_of_ne_nil {l : Str} (h : l ≠ []) : ∃ c, l.getLast? = some c := by
  cases l with
  | nil => exact absurd rfl h
  | cons a rest => exact ⟨(a :: rest).getLast (by simp), List.getLast?_eq_getLast _ _⟩

theorem hexdigest_length (d : List Nat) : (hexdigest d).length = 2 * d.length := by
  induction d with
  | nil => rfl
  | cons b rest ih =>
    simp [hexdigest, List.flatMap_cons] at ih ⊢
    omega

theorem hexDigit_mem (n : Nat) (h : n < 16) :
    (strL "0123456789abcdef").contains (hexDigitC n) = true := by
  revert h
  revert n
  decide

theorem hexdigest_all_lower_hex (d : List Nat) :
    (hexdigest d).all (fun c => (strL "0123456789abcdef").contains c) = true := by
  induction d with
  | nil => rfl
  | cons b rest ih =>
    have h1 := hexDigit_mem (b / 16 % 16) (Nat.mod_lt _ (by omega))
    have h2 := hexDigit_mem (b % 16) (Nat.mod_lt _ (by omega))
    simp only [hexdigest, List.flatMap_cons, List.all_append, List.all_cons, List.all_nil,
      h1, h2, Bool.and_true, Bool.true_and]
    simpa [hexdigest] using ih

/-! ## Claim theorems: check_hash -/

/-- C9: calling `check_hash` with zero file paths returns neither documented
shape: the `files[0]` access in the single-file branch fails with an
`IndexError`, for every digest function and every file system — in
particular before any file is consulted. -/
theorem check_hash_empty_index_error (sha : List Nat → List Nat)
    (fs : Str → Option (List Nat)) :
    check_hash sha fs [] = .error .indexError := rfl

/-- C6: on a single readable path, `check_hash` returns the digest of the
file's full contents encoded as a lowercase hexadecimal string, which for a
32-byte SHA-256 digest has 64 characters. -/
theorem check_hash_single_hex (sha : List Nat → List Nat)
    (fs : Str → Option (List Nat)) (f : Str) (content : List Nat)
    (hread : fs f = some content) (hlen : (sha content).length = 32) :
    check_hash sha fs [f] = .ok (.hex (hexdigest (sha content))) ∧
      (hexdigest (sha content)).length = 64 ∧
      (hexdigest (sha content)).all
        (fun c => (strL "0123456789abcdef").contains c) = true := by
  refine ⟨?_, ?_, hexdigest_all_lower_hex _⟩
  · simp [check_hash, hread]
  · rw [hexdigest_length, hlen]

theorem check_hash_single_hex_witness :
    check_hash (fun _ => List.replicate 32 0) (fun _ => some [7]) [strL "a"] =
      .ok (.hex (hexdigest (List.replicate 32 0))) := by
  have h := check_hash_single_hex (fun _ => List.replicate 32 0)
    (fun _ => some [7]) (strL "a") [7] rfl (by decide)
  exact h.1

theorem checkLoop_seeded (sha : List Nat → List Nat)
    (fs : Str → Option (List Nat)) (h0 : List Nat) (l : List Str)
    (hread : ∀ f ∈ l, (fs f).isSome) :
    checkLoop sha fs (some h0) l =
      .ok (.bool (l.all (fun f => decide (digestOf sha fs f = some h0)))) := by
  induction l with
  | nil => rfl
  | cons f rest ih =>
    have hf : (fs f).isSome := hread f (by simp)
    obtain ⟨c, hc⟩ := Option.isSome_iff_exists.mp hf
    have hrest : ∀ g ∈ rest, (fs g).isSome := fun g hg => hread g (by simp [hg])
    have hdig : digestOf sha fs f = some (sha c) := by simp [digestOf, hc]
    by_cases he : h0 = sha c
    · subst he
      have hstep : checkLoop sha fs (some (sha c)) (f :: rest) =
          checkLoop sha fs (some (sha c)) rest := by
        simp [checkLoop, hc]
      rw [hstep, ih hrest, List.all_cons]
      simp [hdig]
    · have hne : ¬(digestOf sha fs f = some h0) := by
        rw [hdig]
        intro hx
        exact he (Option.some.inj hx).symm
      simp [checkLoop, hc, he, List.all_cons, hne]

/-- C5: with two or more readable paths, `check_hash` returns the boolean
that is true exactly when every file's raw digest of its full contents is
identical to the first file's digest (the loop returns `False` at the first
mismatch, `True` otherwise). -/
theorem check_hash_multi_compares_to_first (sha : List Nat → List Nat)
    (fs : Str → Option (List Nat)) (f0 f1 : Str) (rest : List Str)
    (hread : ∀ f ∈ f0 :: f1 :: rest, (fs f).isSome) :
    check_hash sha fs (f0 :: f1 :: rest) =
      .ok (.bool ((f0 :: f1 :: rest).all
        (fun f => decide (digestOf sha fs f = digestOf sha fs f0)))) := by
  have hf0 : (fs f0).isSome := hread f0 (by simp)
  obtain ⟨c0, hc0⟩ := Option.isSome_iff_exists.mp hf0
  have htail : ∀ f ∈ f1 :: rest, (fs f).isSome := fun f hf =>
    hread f (by simp at hf ⊢; tauto)
  have hd0 : digestOf sha fs f0 = some (sha c0) := by simp [digestOf, hc0]
  calc check_hash sha fs (f0 :: f1 :: rest)
      = checkLoop sha fs none (f0 :: f1 :: rest) := by
        simp [check_hash]
    _ = checkLoop sha fs (some (sha c0)) (f1 :: rest) := by
        simp [checkLoop, hc0]
    _ = .ok (.bool ((f1 :: rest).all
          (fun f => decide (digestOf sha fs f = some (sha c0))))) :=
        checkLoop_seeded sha fs (sha c0) (f1 :: rest) htail
    _ = .ok (.bool ((f0 :: f1 :: rest).all
          (fun f => decide (digestOf sha fs f = digestOf sha fs f0)))) := by
        rw [hd0]
        simp [List.all_cons, hd0]

theorem check_hash_multi_witness :
    check_hash (fun l => l) (fun _ => some [1]) [strL "a", strL "b"] =
      .ok (.bool true) := by
  have h := check_hash_multi_compares_to_first (fun l => l) (fun _ => some [1])
    (strL "a") (strL "b") [] (fun f _ => rfl)
  exact h.trans (by decide)

/-! ## Claim theorems: backup -/

/-- C2: for every non-empty output path the separator-normalization
condition of `backup` is true — a single character cannot differ from both
separators at once being impossible, one of the two inequality disjuncts
always holds — so a `/` is always appended, even when the path already ends
in `/` or `\`. -/
theorem backup_sep_condition_always_true (output_path : Str)
    (h : output_path ≠ []) :
    sepCond output_path = true ∧
      normalizeOutput output_path = output_path ++ ['/'] := by
  obtain ⟨c, hc⟩ := getLast?_some_of_ne_nil h
  have hcond : sepCond output_path = true := by
    have hlen : 0 < output_path.length := List.length_pos.mpr h
    by_cases hbs : c = '\\'
    · simp [sepCond, hc, hbs, hlen]
    · simp [sepCond, hc, hbs, hlen]
  exact ⟨hcond, by simp [normalizeOutput, hcond]⟩

theorem backup_sep_condition_witness :
    sepCond (strL "out/") = true ∧
      normalizeOutput (strL "out/") = strL "out/" ++ ['/'] :=
  backup_sep_condition_always_true (strL "out/") (by decide)

/-- C4: whenever the first copy succeeds, the `finally` clause performs a
second unconditional copy, so the source is copied to the destination twice
in one invocation, and no exception escapes. -/
theorem backup_success_copies_twice (now file output_path backup_name : Str)
    (w : World) (hsrc : w.srcOk = true) (hdir : w.outDirExists = true) :
    (backup now file output_path backup_name w).2 =
      ([Ev.copy true, Ev.copy true], none) ∧
      countCopies (backup now file output_path backup_name w).2.1 = 2 := by
  have : backup_run w = ([Ev.copy true, Ev.copy true], none) := by
    simp [backup_run, copy_err, hsrc, hdir, finally_copy]
  constructor
  · simp [backup, this]
  · simp [backup, this, countCopies]

theorem backup_success_copies_twice_witness :
    (backup (strL "2023-01-01 10h00") (strL "a.txt") (strL "out") []
        { srcOk := true, outDirExists := true, mkdirPerm := true }).2 =
      ([Ev.copy true, Ev.copy true], none) :=
  (backup_success_copies_twice (strL "2023-01-01 10h00") (strL "a.txt")
    (strL "out") [] { srcOk := true, outDirExists := true, mkdirPerm := true }
    rfl rfl).1

/-- C3 counterexample: with the destination directory missing and directory
creation denied, `backup` prints the diagnostic message but does not stop:
the `finally` clause attempts the copy a second time (two copy attempts in
the trace) and the resulting `FileNotFoundError` escapes. -/
theorem backup_permission_denied_retries_copy :
    (backup (strL "2023-01-01 10h00") (strL "a.txt") (strL "out") []
        { srcOk := true, outDirExists := false, mkdirPerm := false }).2 =
      ([Ev.copy false, Ev.mkdir false, Ev.printMsg, Ev.copy false],
        some PyErr.fileNotFound) ∧
      countCopies
        (backup (strL "2023-01-01 10h00") (strL "a.txt") (strL "out") []
          { srcOk := true, outDirExists := false, mkdirPerm := false }).2.1 =
        2 := by
  constructor <;> rfl

/-- C3 amended: when the initial copy fails because the destination
directory is missing and the recursive directory creation fails with a
permission error, `backup` reports the diagnostic message, but then the
unconditional `finally` copy runs once more and fails again, and that
`FileNotFoundError` propagates — the operation does not stop short of a
second copy attempt. -/
theorem backup_permission_denied_message_then_retry
    (now file output_path backup_name : Str) (w : World)
    (hsrc : w.srcOk = true) (hdir : w.outDirExists = false)
    (hperm : w.mkdirPerm = false) :
    (backup now file output_path backup_name w).2 =
      ([Ev.copy false, Ev.mkdir false, Ev.printMsg, Ev.copy false],
        some PyErr.fileNotFound) := by
  simp [backup, backup_run, copy_err, hsrc, hdir, hperm, makedirs_run,
    finally_copy]

theorem backup_permission_denied_message_then_retry_witness :
    (backup (strL "t") (strL "f.csv") (strL "d") []
        { srcOk := true, outDirExists := false, mkdirPerm := false }).2 =
      ([Ev.copy false, Ev.mkdir false, Ev.printMsg, Ev.copy false],
        some PyErr.fileNotFound) :=
  backup_permission_denied_message_then_retry (strL "t") (strL "f.csv")
    (strL "d") [] { srcOk := true, outDirExists := false, mkdirPerm := false }
    rfl rfl rfl

/-! ## Claim theorems: read_cfg, easy cases -/

/-- C7: reading a path at which no file exists yields the empty document:
`config.read` silently skips an unopenable file, so the fresh parser has no
sections and `read_cfg` returns an empty mapping instead of raising. -/
theorem read_cfg_missing_file_empty : read_cfg none = .ok [] := rfl

/-- C10: a well-formed file whose stored value contains a `%` not followed
by a valid interpolation sequence parses fine (the raw value `100%` is
stored), but `read_cfg` raises `InterpolationSyntaxError` when
`config.get` retrieves the value, instead of returning the stored string. -/
theorem read_cfg_percent_interpolation_error :
    config_read (some (strL "[s]\na=100%\n")) =
      .ok { defaults := [],
            sections := [(strL "s", [(strL "a", strL "100%")])] } ∧
      read_cfg (some (strL "[s]\na=100%\n")) = .error .interpolationSyntax := by
  constructor
  · rfl
  · rfl

/-- C8 counterexample: the file `[s]\nA=1\n` stores the option name `A`,
but `read_cfg` returns it as `a` — the default `optionxform` lowercases
option names, so they are not returned character-for-character. -/
theorem read_cfg_not_case_preserving :
    read_cfg (some (strL "[s]\nA=1\n")) =
      .ok [(strL "s", [(strL "a", strL "1")])] ∧
      read_cfg (some (strL "[s]\nA=1\n")) ≠
        .ok [(strL "s", [(strL "A", strL "1")])] := by
  constructor
  · rfl
  · decide

/-! ## Option names are lowercased: invariant machinery for C8 amended -/

/-- No ASCII uppercase letter occurs in the string. -/
def noUpper (s : Str) : Bool := s.all (fun c => !isUpperC c)

theorem toNat_ofNat_valid {n : Nat} (h1 : 97 ≤ n) (h2 : n ≤ 122) :
    (Char.ofNat n).toNat = n := by
  have hv : n.isValidChar := by
    unfold Nat.isValidChar
    omega
  rw [Char.ofNat, dif_pos hv]
  rfl

theorem lowerC_not_upper (c : Char) : isUpperC (lowerC c) = false := by
  by_cases h : isUpperC c = true
  · have hb : 65 ≤ c.toNat ∧ c.toNat ≤ 90 := by
      simpa [isUpperC] using h
    have ht : (Char.ofNat (c.toNat + 32)).toNat = c.toNat + 32 :=
      toNat_ofNat_valid (by omega) (by omega)
    rw [lowerC, if_pos h]
    simp only [isUpperC, ht]
    have hgt : ¬(c.toNat + 32 ≤ 90) := by omega
    simp [hgt]
  · rw [lowerC, if_neg h]
    simpa using h

theorem noUpper_lowerStr (s : Str) : noUpper (lowerStr s) = true := by
  simp only [noUpper, lowerStr, List.all_map, List.all_eq_true]
  intro c _
  simp [lowerC_not_upper c]

theorem alookup_mem {β : Type} {k : Str} {v : β} {l : List (Str × β)}
    (h : alookup k l = some v) : (k, v) ∈ l := by
  induction l with
  | nil => simp [alookup] at h
  | cons e rest ih =>
    by_cases he : e.1 = k
    · subst he
      simp [alookup] at h
      subst h
      exact List.mem_cons_self e rest
    · simp [alookup, he] at h
      exact List.mem_cons_of_mem _ (ih h)

theorem amodify_key_pred {β : Type} {P : Str → Prop} {k : Str} {f : β → β}
    {l : List (Str × β)} (h : ∀ e ∈ l, P e.1) :
    ∀ e ∈ amodify k f l, P e.1 := by
  induction l with
  | nil => simp [amodify]
  | cons e rest ih =>
    have hrest : ∀ e2 ∈ rest, P e2.1 := fun e2 h2 =>
      h e2 (List.mem_cons_of_mem _ h2)
    intro x hx
    simp only [amodify] at hx
    by_cases he : e.1 = k
    · rw [if_pos he] at hx
      rcases List.mem_cons.mp hx with hx | hx
      · rw [hx]
        exact h e (List.mem_cons_self e rest)
      · exact hrest x hx
    · rw [if_neg he] at hx
      rcases List.mem_cons.mp hx with hx | hx
      · rw [hx]
        exact h e (List.mem_cons_self e rest)
      · exact ih hrest x hx

theorem aset_entry_pred {β : Type} {P : Str × β → Prop} {k : Str} {v : β}
    {l : List (Str × β)} (h : ∀ e ∈ l, P e) (hkv : P (k, v)) :
    ∀ e ∈ aset k v l, P e := by
  induction l with
  | nil =>
    intro x hx
    simp only [aset, List.mem_singleton] at hx
    rw [hx]
    exact hkv
  | cons e rest ih =>
    have hrest : ∀ e2 ∈ rest, P e2 := fun e2 h2 =>
      h e2 (List.mem_cons_of_mem _ h2)
    intro x hx
    simp only [aset] at hx
    by_cases he : e.1 = k
    · rw [if_pos he] at hx
      rcases List.mem_cons.mp hx with hx | hx
      · rw [hx]
        exact hkv
      · exact hrest x hx
    · rw [if_neg he] at hx
      rcases List.mem_cons.mp hx with hx | hx
      · rw [hx]
        exact h e (List.mem_cons_self e rest)
      · exact ih hrest x hx

/-- All option keys recorded in the parser state are free of uppercase. -/
def KeysLower (st : PState) : Prop :=
  (∀ e ∈ st.defaults, noUpper e.1 = true) ∧
    (∀ sp ∈ st.sections, ∀ e ∈ sp.2, noUpper e.1 = true)

theorem getCurOpts_pred {st : PState} {opts : List (Str × List Str)}
    (hKL : KeysLower st) (h : getCurOpts st = some opts) :
    ∀ e ∈ opts, noUpper e.1 = true := by
  cases hc : st.cursect with
  | none => simp [getCurOpts, hc] at h
  | some s =>
    simp only [getCurOpts, hc] at h
    by_cases hd : s = DEFAULTSECT
    · rw [if_pos hd] at h
      intro e he
      rw [← Option.some.inj h] at he
      exact hKL.1 e he
    · rw [if_neg hd] at h
      intro e he
      exact hKL.2 (s, opts) (alookup_mem h) e he

theorem setCurOpts_keysLower {st : PState} {opts : List (Str × List Str)}
    (hKL : KeysLower st) (hopts : ∀ e ∈ opts, noUpper e.1 = true) :
    KeysLower (setCurOpts st opts) := by
  cases hc : st.cursect with
  | none => simpa [setCurOpts, hc] using hKL
  | some s =>
    simp only [setCurOpts, hc]
    by_cases hd : s = DEFAULTSECT
    · rw [if_pos hd]
      exact ⟨hopts, hKL.2⟩
    · rw [if_neg hd]
      refine ⟨hKL.1, ?_⟩
      exact aset_entry_pred hKL.2 hopts

theorem appendCurVal_keysLower {st : PState} {o piece : Str}
    (hKL : KeysLower st) : KeysLower (appendCurVal st o piece) := by
  unfold appendCurVal
  cases h : getCurOpts st with
  | none => exact hKL
  | some opts =>
    exact setCurOpts_keysLower hKL
      (@amodify_key_pred _ (fun k => noUpper k = true) _ _ _ (getCurOpts_pred hKL h))

theorem stepOption_keysLower {st st2 : PState} {optRaw valRaw : Str}
    (h : stepOption st optRaw valRaw = .ok st2) (hKL : KeysLower st) :
    KeysLower st2 := by
  simp only [stepOption] at h
  by_cases hpe : optRaw.isEmpty = true
  · rw [if_pos hpe] at h
    have hKLe : KeysLower { st with hasErr := true } := ⟨hKL.1, hKL.2⟩
    cases hget : getCurOpts { st with hasErr := true } with
    | none =>
      rw [hget] at h
      simp only [] at h
      cases h
      exact hKLe
    | some opts =>
      rw [hget] at h
      simp only [] at h
      by_cases hdup : (alookup (lowerStr (rstrip optRaw)) opts).isSome = true
      · rw [if_pos hdup] at h
        cases h
      · rw [if_neg hdup] at h
        cases h
        have hopts2 : ∀ e ∈ opts ++ [(lowerStr (rstrip optRaw),
            [strip valRaw])], noUpper e.1 = true := by
          intro e he
          rcases List.mem_append.mp he with he | he
          · exact getCurOpts_pred hKLe hget e he
          · rw [List.mem_singleton.mp he]
            exact noUpper_lowerStr _
        have hres := setCurOpts_keysLower hKLe hopts2
        exact ⟨hres.1, hres.2⟩
  · rw [if_neg hpe] at h
    cases hget : getCurOpts st with
    | none =>
      rw [hget] at h
      simp only [] at h
      cases h
      exact hKL
    | some opts =>
      rw [hget] at h
      simp only [] at h
      by_cases hdup : (alookup (lowerStr (rstrip optRaw)) opts).isSome = true
      · rw [if_pos hdup] at h
        cases h
      · rw [if_neg hdup] at h
        cases h
        have hopts2 : ∀ e ∈ opts ++ [(lowerStr (rstrip optRaw),
            [strip valRaw])], noUpper e.1 = true := by
          intro e he
          rcases List.mem_append.mp he with he | he
          · exact getCurOpts_pred hKL hget e he
          · rw [List.mem_singleton.mp he]
            exact noUpper_lowerStr _
        have hres := setCurOpts_keysLower hKL hopts2
        exact ⟨hres.1, hres.2⟩

theorem stepLine_keysLower {st st2 : PState} {line : Str}
    (h : stepLine st line = .ok st2) (hKL : KeysLower st) : KeysLower st2 := by
  unfold stepLine at h
  by_cases hemp : (if isCommentLine (strip line) then ([] : Str)
      else strip line).isEmpty = true
  · rw [if_pos hemp] at h
    by_cases hcom : isCommentLine (strip line) = true
    · rw [if_pos hcom] at h
      cases h
      exact hKL
    · rw [if_neg hcom] at h
      cases hcur : st.cursect with
      | none =>
        simp only [hcur] at h
        cases h
        exact hKL
      | some s =>
        cases hopt : st.optname with
        | none =>
          simp only [hcur, hopt] at h
          cases h
          exact hKL
        | some o =>
          simp only [hcur, hopt] at h
          by_cases ho : o.isEmpty = true
          · rw [if_pos ho] at h
            cases h
            exact hKL
          · rw [if_neg ho] at h
            cases h
            exact appendCurVal_keysLower hKL
  · rw [if_neg hemp] at h
    by_cases hcont : (st.cursect.isSome &&
        (match st.optname with | some o => !o.isEmpty | none => false) &&
        decide (st.indent < line.findIdx (fun c => !isSpaceC c))) = true
    · rw [if_pos hcont] at h
      cases hopt : st.optname with
      | none =>
        simp only [hopt] at h
        cases h
        exact hKL
      | some o =>
        simp only [hopt] at h
        cases h
        exact appendCurVal_keysLower hKL
    · rw [if_neg hcont] at h
      cases hsect : sectMatch (if isCommentLine (strip line) then ([] : Str)
          else strip line) with
      | some header =>
        simp only [hsect] at h
        by_cases hdef : header = DEFAULTSECT
        · rw [if_pos hdef] at h
          cases h
          exact ⟨hKL.1, hKL.2⟩
        · rw [if_neg hdef] at h
          by_cases hdup : (alookup header st.sections).isSome = true
          · rw [if_pos hdup] at h
            cases h
          · rw [if_neg hdup] at h
            cases h
            refine ⟨hKL.1, ?_⟩
            intro sp hsp
            rcases List.mem_append.mp hsp with hsp | hsp
            · exact hKL.2 sp hsp
            · intro e he
              rw [List.mem_singleton.mp hsp] at he
              simp at he
      | none =>
        simp only [hsect] at h
        cases hcur : st.cursect with
        | none =>
          simp only [hcur] at h
          cases h
        | some s =>
          simp only [hcur] at h
          cases hopm : optMatch (if isCommentLine (strip line) then ([] : Str)
              else strip line) with
          | none =>
            simp only [hopm] at h
            cases h
            exact ⟨hKL.1, hKL.2⟩
          | some pr =>
            obtain ⟨optRaw, valRaw⟩ := pr
            simp only [hopm] at h
            exact stepOption_keysLower h ⟨hKL.1, hKL.2⟩

theorem readLines_keysLower {ls : List Str} {st st2 : PState}
    (h : readLines ls st = .ok st2) (hKL : KeysLower st) : KeysLower st2 := by
  induction ls generalizing st with
  | nil =>
    cases h
    exact hKL
  | cons l rest ih =>
    simp only [readLines] at h
    cases hstep : stepLine st l with
    | error e =>
      rw [hstep] at h
      simp only [] at h
      exact Except.noConfusion h
    | ok stm =>
      rw [hstep] at h
      simp only [] at h
      exact ih h (stepLine_keysLower hstep hKL)

/-- All option keys of a joined parse result are free of uppercase. -/
def ParsedKeysLower (p : Parsed) : Prop :=
  (∀ e ∈ p.defaults, noUpper e.1 = true) ∧
    (∀ sp ∈ p.sections, ∀ e ∈ sp.2, noUpper e.1 = true)

theorem config_read_keysLower {contents : Option Str} {p : Parsed}
    (h : config_read contents = .ok p) : ParsedKeysLower p := by
  cases contents with
  | none =>
    cases h
    constructor
    · intro e he
      simp at he
    · intro sp hsp
      simp at hsp
  | some s =>
    simp only [config_read] at h
    cases hrl : readLines (pyLines s) initPState with
    | error e =>
      rw [hrl] at h
      simp only [] at h
      exact Except.noConfusion h
    | ok st =>
      rw [hrl] at h
      simp only [] at h
      by_cases herr : st.hasErr = true
      · rw [if_pos herr] at h
        cases h
      · rw [if_neg herr] at h
        cases h
        have hinit : KeysLower initPState := by
          constructor
          · intro e he
            simp [initPState] at he
          · intro sp hsp
            simp [initPState] at hsp
        have hKL : KeysLower st := readLines_keysLower hrl hinit
        constructor
        · intro e he
          simp only [joinOpts, List.mem_map] at he
          obtain ⟨e0, he0, rfl⟩ := he
          exact hKL.1 e0 he0
        · intro sp hsp e he
          simp only [joinSecs, List.mem_map] at hsp
          obtain ⟨sp0, hsp0, rfl⟩ := hsp
          simp only [joinOpts, List.mem_map] at he
          obtain ⟨e0, he0, rfl⟩ := he
          exact hKL.2 sp0 hsp0 e0 he0

theorem getOptions_names {p : Parsed} {sec : Str} {names : List Str}
    {vs : List (Str × Str)} (h : getOptions p sec names = .ok vs) :
    ∀ ov ∈ vs, ov.1 ∈ names := by
  induction names generalizing vs with
  | nil =>
    cases h
    intro ov hov
    simp at hov
  | cons o rest ih =>
    simp only [getOptions] at h
    cases hg : cfg_get p sec o with
    | error e =>
      rw [hg] at h
      simp only [] at h
      exact Except.noConfusion h
    | ok v =>
      rw [hg] at h
      simp only [] at h
      cases hr : getOptions p sec rest with
      | error e =>
        rw [hr] at h
        simp only [] at h
        exact Except.noConfusion h
      | ok vs0 =>
        rw [hr] at h
        simp only [] at h
        cases h
        intro ov hov
        rcases List.mem_cons.mp hov with hov | hov
        · rw [hov]
          simp
        · exact List.mem_cons_of_mem _ (ih hr ov hov)

theorem getSections_mem {p : Parsed} {l r : List (Str × List (Str × Str))}
    (h : getSections p l = .ok r) :
    ∀ y ∈ r, ∃ sp ∈ l, y.1 = sp.1 ∧
      getOptions p sp.1 (optionKeys p.defaults sp.2) = .ok y.2 := by
  induction l generalizing r with
  | nil =>
    cases h
    intro y hy
    simp at hy
  | cons sp rest ih =>
    simp only [getSections] at h
    cases hg : getOptions p sp.1 (optionKeys p.defaults sp.2) with
    | error e =>
      rw [hg] at h
      simp only [] at h
      exact Except.noConfusion h
    | ok vals =>
      rw [hg] at h
      simp only [] at h
      cases hr : getSections p rest with
      | error e =>
        rw [hr] at h
        simp only [] at h
        exact Except.noConfusion h
      | ok others =>
        rw [hr] at h
        simp only [] at h
        cases h
        intro y hy
        rcases List.mem_cons.mp hy with hy | hy
        · exact ⟨sp, List.mem_cons_self sp rest, by rw [hy], by rw [hy]; exact hg⟩
        · obtain ⟨sp0, hsp0, h1, h2⟩ := ih hr y hy
          exact ⟨sp0, List.mem_cons_of_mem _ hsp0, h1, h2⟩

theorem optionKeys_mem {defaults opts : List (Str × Str)} {o : Str}
    (h : o ∈ optionKeys defaults opts) :
    (∃ e ∈ opts, o = e.1) ∨ (∃ e ∈ defaults, o = e.1) := by
  rcases List.mem_append.mp h with h | h
  · obtain ⟨e, he, rfl⟩ := List.mem_map.mp h
    exact Or.inl ⟨e, he, rfl⟩
  · obtain ⟨e, he, rfl⟩ := List.mem_map.mp (List.mem_of_mem_filter h)
    exact Or.inr ⟨e, he, rfl⟩

/-- C8 amended: `read_cfg` does not return option names character-for-
character as stored; the reader's default `optionxform` is `str.lower`, so
every option name it returns is lowercased (it contains no uppercase
letter; names already lowercase come back unchanged — the round-trip
theorem covers that case exactly). -/
theorem read_cfg_option_names_lowercased {contents : Option Str}
    {res : List (Str × List (Str × Str))} (h : read_cfg contents = .ok res) :
    ∀ sp ∈ res, ∀ ov ∈ sp.2, noUpper ov.1 = true := by
  simp only [read_cfg] at h
  cases hcr : config_read contents with
  | error e =>
    rw [hcr] at h
    simp only [] at h
    exact Except.noConfusion h
  | ok p =>
    rw [hcr] at h
    simp only [] at h
    have hPKL := config_read_keysLower hcr
    intro sp hsp ov hov
    obtain ⟨sp0, hsp0, _, hget⟩ := getSections_mem h sp hsp
    have hname := getOptions_names hget ov hov
    rcases optionKeys_mem hname with ⟨e, he, heq⟩ | ⟨e, he, heq⟩
    · rw [heq]
      exact hPKL.2 sp0 hsp0 e he
    · rw [heq]
      exact hPKL.1 e he

theorem read_cfg_option_names_lowercased_witness : noUpper (strL "a") = true :=
  @read_cfg_option_names_lowercased
    (some (strL "[s]\nA=1\n"))
    [(strL "s", [(strL "a", strL "1")])] rfl
    (strL "s", [(strL "a", strL "1")]) (by decide)
    (strL "a", strL "1") (by decide)

/-! ## String-level facts for the round-trip theorem -/

/-- The first character exists and is not whitespace. -/
def headNonSpace : Str → Bool
  | [] => false
  | c :: _ => !isSpaceC c

/-- The last character exists and is not whitespace. -/
def lastNonSpaceB (s : Str) : Bool := headNonSpace s.reverse

/-- Every character is ASCII (the fragment of Python text the embedding
models exactly: outside ASCII, Python's `str.strip`/`str.lower` know more
whitespace and case than the model). -/
def asciiOnly (s : Str) : Bool := s.all (fun c => decide (c.toNat < 128))

theorem lstrip_eq_self {s : Str} (h : headNonSpace s = true) :
    lstrip s = s := by
  cases s with
  | nil => rfl
  | cons c t =>
    have hc : ¬(isSpaceC c = true) := by
      simp [headNonSpace] at h
      simp [h]
    exact List.dropWhile_cons_of_neg hc

theorem rstrip_eq_self {s : Str} (h : lastNonSpaceB s = true) :
    rstrip s = s := by
  unfold rstrip
  cases hr : s.reverse with
  | nil => simp [lastNonSpaceB, headNonSpace, hr] at h
  | cons c t =>
    have hc : ¬(isSpaceC c = true) := by
      simp [lastNonSpaceB, headNonSpace, hr] at h
      simp [h]
    rw [List.dropWhile_cons_of_neg hc, ← hr, List.reverse_reverse]

theorem strip_eq_self {s : Str} (h1 : headNonSpace s = true)
    (h2 : lastNonSpaceB s = true) : strip s = s := by
  unfold strip
  rw [rstrip_eq_self h2, lstrip_eq_self h1]

theorem rstrip_append_newline (s : Str) : rstrip (s ++ ['\n']) = rstrip s := by
  unfold rstrip
  rw [List.reverse_append]
  simp only [List.reverse_cons, List.reverse_nil, List.nil_append,
    List.singleton_append]
  rw [List.dropWhile_cons_of_pos (by decide)]

theorem rstrip_nil : rstrip [] = [] := rfl

theorem rstrip_append (u w : Str) :
    rstrip (u ++ w) = if rstrip w = [] then rstrip u else u ++ rstrip w := by
  unfold rstrip
  rw [List.reverse_append, List.dropWhile_append]
  by_cases hw : List.dropWhile isSpaceC w.reverse = []
  · simp [hw]
  · have h1 : (List.dropWhile isSpaceC w.reverse).isEmpty = false := by
      simpa [List.isEmpty_iff] using hw
    have h2 : (List.dropWhile isSpaceC w.reverse).reverse ≠ [] := by
      simpa [List.reverse_eq_nil_iff] using hw
    simp [h1, h2]

theorem rstrip_cons_newline (x z : Str) :
    rstrip (x ++ '\n' :: z) =
      if rstrip z = [] then rstrip x else (x ++ ['\n']) ++ rstrip z := by
  have key : x ++ '\n' :: z = (x ++ ['\n']) ++ z := by simp
  rw [key, rstrip_append, rstrip_append_newline]

/-! ## Joining value pieces -/

theorem joinVal_single (v : Str) : joinVal [v] = rstrip v := rfl

theorem joinVal_append_empty (l : List Str) :
    joinVal (l ++ [[]]) = joinVal l := by
  unfold joinVal
  induction l with
  | nil => rfl
  | cons x rest ih =>
    cases rest with
    | nil =>
      show rstrip (x ++ '\n' :: joinPieces [[]]) = rstrip x
      have : joinPieces [[]] = [] := rfl
      rw [this]
      exact rstrip_append_newline x
    | cons y t =>
      show rstrip (x ++ '\n' :: joinPieces ((y :: t) ++ [[]])) =
        rstrip (x ++ '\n' :: joinPieces (y :: t))
      rw [rstrip_cons_newline, rstrip_cons_newline, ih]

/-! ## Association-list facts -/

/-- No string occurs twice in the list. -/
def nodupB : List Str → Bool
  | [] => true
  | x :: xs => !xs.contains x && nodupB xs

theorem alookup_eq_none_iff {β : Type} {k : Str} {l : List (Str × β)} :
    alookup k l = none ↔ ∀ e ∈ l, e.1 ≠ k := by
  induction l with
  | nil =>
    constructor
    · intro _ e he
      simp at he
    · intro _
      rfl
  | cons e rest ih =>
    by_cases he : e.1 = k
    · constructor
      · intro h
        simp only [alookup, if_pos he] at h
        exact Option.noConfusion h
      · intro h
        exact absurd he (h e (List.mem_cons_self e rest))
    · constructor
      · intro h
        simp only [alookup, if_neg he] at h
        intro x hx
        rcases List.mem_cons.mp hx with hx | hx
        · rw [hx]
          exact he
        · exact ih.mp h x hx
      · intro h
        simp only [alookup, if_neg he]
        exact ih.mpr (fun x hx => h x (List.mem_cons_of_mem _ hx))

theorem alookup_append_of_none {β : Type} {k : Str} {l1 : List (Str × β)}
    (l2 : List (Str × β)) (h : alookup k l1 = none) :
    alookup k (l1 ++ l2) = alookup k l2 := by
  induction l1 with
  | nil => rfl
  | cons e rest ih =>
    by_cases he : e.1 = k
    · simp [alookup, he] at h
    · simp only [alookup, he] at h
      simp only [List.cons_append, alookup, if_neg he]
      exact ih h

theorem alookup_append_last_self {β : Type} {k : Str} {l : List (Str × β)}
    {v : β} (h : alookup k l = none) : alookup k (l ++ [(k, v)]) = some v := by
  rw [alookup_append_of_none _ h]
  simp [alookup]

theorem alookup_append_last_ne {β : Type} {k k2 : Str} {l : List (Str × β)}
    {v : β} (h : alookup k l = none) (hne : k2 ≠ k) :
    alookup k (l ++ [(k2, v)]) = none := by
  rw [alookup_append_of_none _ h]
  simp [alookup, hne]

theorem aset_append_of_none {β : Type} {s : Str} {base : List (Str × β)}
    (nd d : β) (h : alookup s base = none) :
    aset s nd (base ++ [(s, d)]) = base ++ [(s, nd)] := by
  induction base with
  | nil => simp [aset]
  | cons e rest ih =>
    by_cases he : e.1 = s
    · simp [alookup, he] at h
    · simp only [alookup, if_neg he] at h
      simp only [List.cons_append, aset, if_neg he]
      exact congrArg (fun t => e :: t) (ih h)

theorem containsStr_iff {l : List Str} {x : Str} :
    l.contains x = true ↔ x ∈ l := List.elem_iff

theorem not_containsStr {l : List Str} {x : Str}
    (h : (!l.contains x) = true) : x ∉ l := by
  intro hmem
  rw [containsStr_iff.mpr hmem] at h
  exact Bool.noConfusion h

theorem nodupB_alookup_self {β : Type} {l : List (Str × β)}
    (h : nodupB (l.map Prod.fst) = true) : ∀ e ∈ l, alookup e.1 l = some e.2 := by
  induction l with
  | nil => simp
  | cons e rest ih =>
    simp only [List.map_cons, nodupB, Bool.and_eq_true] at h
    intro x hx
    rcases List.mem_cons.mp hx with hx | hx
    · rw [hx]
      simp [alookup]
    · have hne : e.1 ≠ x.1 := by
        intro hc
        have : e.1 ∈ rest.map Prod.fst := by
          rw [hc]
          exact List.mem_map_of_mem Prod.fst hx
        exact not_containsStr h.1 this
      simp only [alookup, if_neg hne]
      exact ih h.2 x hx

/-! ## Join preservation facts -/

theorem joinOpts_fst (l : List (Str × List Str)) :
    (joinOpts l).map Prod.fst = l.map Prod.fst := by
  simp [joinOpts]

theorem joinSecs_fst (l : List (Str × List (Str × List Str))) :
    (joinSecs l).map Prod.fst = l.map Prod.fst := by
  simp [joinSecs]

theorem joinOpts_amodify_empty (o : Str) (opts : List (Str × List Str)) :
    joinOpts (amodify o (fun l => l ++ [[]]) opts) = joinOpts opts := by
  induction opts with
  | nil => rfl
  | cons e rest ih =>
    by_cases he : e.1 = o
    · simp only [amodify, if_pos he, joinOpts, List.map_cons]
      rw [joinVal_append_empty]
    · simp only [amodify, if_neg he, joinOpts, List.map_cons]
      simp only [joinOpts] at ih
      rw [ih]

theorem joinSecs_aset_amodify {s o : Str}
    {secs : List (Str × List (Str × List Str))} {opts : List (Str × List Str)}
    (h : alookup s secs = some opts) :
    joinSecs (aset s (amodify o (fun l => l ++ [[]]) opts) secs) =
      joinSecs secs := by
  induction secs with
  | nil => simp [alookup] at h
  | cons e rest ih =>
    by_cases he : e.1 = s
    · have hopts : opts = e.2 := by
        simp [alookup, he] at h
        exact h.symm
      subst hopts
      simp only [aset, if_pos he, joinSecs, List.map_cons]
      rw [joinOpts_amodify_empty, he]
    · simp only [alookup, if_neg he] at h
      simp only [aset, if_neg he, joinSecs, List.map_cons]
      simp only [joinSecs] at ih
      rw [ih h]

/-! ## The lines of the writer's output -/

/-- The option line `option=value` as written by `create_cfg`. -/
def optLine (ov : Str × Str) : Str := ov.1 ++ '=' :: ov.2

/-- The lines one section contributes: a blank line, the `[section]`
header, one line per option. -/
def sectionLines (sp : Str × List (Str × Str)) : List Str :=
  [] :: ('[' :: sp.1 ++ [']']) :: sp.2.map optLine

/-- All lines of the file `create_cfg` writes. -/
def linesOf (doc : List (Str × List (Str × Str))) : List Str :=
  doc.flatMap sectionLines

theorem univNl_id {s : Str} (h : '\r' ∉ s) : univNl s = s := by
  induction s with
  | nil => rfl
  | cons c rest ih =>
    have hc : ¬(c = '\r') := fun hx => h (by rw [hx]; exact List.mem_cons_self _ _)
    have hr : '\r' ∉ rest := fun hx => h (List.mem_cons_of_mem _ hx)
    rw [univNl.eq_def]
    simp only [if_neg hc]
    rw [ih hr]

theorem splitNl_ne_nil (s : Str) : splitNl s ≠ [] := by
  induction s with
  | nil => exact fun h => List.noConfusion h
  | cons c rest ih =>
    by_cases hc : c = '\n'
    · simp [splitNl, hc]
    · simp only [splitNl, if_neg hc]
      cases hsp : splitNl rest with
      | nil => simp
      | cons l ls => simp

theorem splitNl_append_of_no_nl {x : Str} (hx : '\n' ∉ x) (r : Str) :
    splitNl (x ++ '\n' :: r) = x :: splitNl r := by
  induction x with
  | nil => simp [splitNl]
  | cons c t ih =>
    have hc : ¬(c = '\n') := fun hxx => hx (by rw [hxx]; exact List.mem_cons_self _ _)
    have ht : '\n' ∉ t := fun hxx => hx (List.mem_cons_of_mem _ hxx)
    have ihh := ih ht
    simp only [List.cons_append, splitNl, if_neg hc]
    have ihh2 : splitNl (t.append ('\n' :: r)) = t :: splitNl r := ihh
    rw [ihh2]

theorem splitNl_optBlock {opts : List (Str × Str)} {r : Str}
    (hng : ∀ ov ∈ opts, '\n' ∉ ov.1 ∧ '\n' ∉ ov.2) :
    splitNl (opts.flatMap (fun ov => ov.1 ++ '=' :: ov.2 ++ ['\n']) ++ r) =
      opts.map optLine ++ splitNl r := by
  induction opts with
  | nil => simp
  | cons ov rest ih =>
    have h1 := hng ov (List.mem_cons_self _ _)
    have hrest : ∀ o2 ∈ rest, '\n' ∉ o2.1 ∧ '\n' ∉ o2.2 :=
      fun o2 h2 => hng o2 (List.mem_cons_of_mem _ h2)
    have hline : '\n' ∉ ov.1 ++ '=' :: ov.2 := by
      intro hmem
      rcases List.mem_append.mp hmem with hmem | hmem
      · exact h1.1 hmem
      · rcases List.mem_cons.mp hmem with hmem | hmem
        · exact absurd hmem (by decide)
        · exact h1.2 hmem
    have hshape :
        (ov :: rest).flatMap (fun o2 => o2.1 ++ '=' :: o2.2 ++ ['\n']) ++ r =
          (ov.1 ++ '=' :: ov.2) ++
            '\n' :: (rest.flatMap (fun o2 => o2.1 ++ '=' :: o2.2 ++ ['\n']) ++ r) := by
      simp
    rw [hshape, splitNl_append_of_no_nl hline, ih hrest]
    simp [optLine]

theorem splitNl_create {doc : List (Str × List (Str × Str))}
    (hg : ∀ sp ∈ doc, '\n' ∉ sp.1 ∧ ∀ ov ∈ sp.2, '\n' ∉ ov.1 ∧ '\n' ∉ ov.2) :
    splitNl (create_cfg doc) = linesOf doc ++ [[]] := by
  induction doc with
  | nil => rfl
  | cons sp rest ih =>
    have h1 := hg sp (List.mem_cons_self _ _)
    have hrest : ∀ s2 ∈ rest, '\n' ∉ s2.1 ∧ ∀ ov ∈ s2.2, '\n' ∉ ov.1 ∧ '\n' ∉ ov.2 :=
      fun s2 h2 => hg s2 (List.mem_cons_of_mem _ h2)
    have hhead : '\n' ∉ '[' :: sp.1 ++ [']'] := by
      intro hmem
      rcases List.mem_cons.mp hmem with hmem | hmem
      · exact absurd hmem (by decide)
      · rcases List.mem_append.mp hmem with hmem | hmem
        · exact h1.1 hmem
        · exact absurd (List.mem_singleton.mp hmem) (by decide)
    have hshape : create_cfg (sp :: rest) =
        '\n' :: (('[' :: sp.1 ++ [']']) ++
          '\n' :: (sp.2.flatMap (fun ov => ov.1 ++ '=' :: ov.2 ++ ['\n']) ++
            create_cfg rest)) := by
      simp [create_cfg]
    rw [hshape]
    have hstep : splitNl ('\n' :: (('[' :: sp.1 ++ [']']) ++
        '\n' :: (sp.2.flatMap (fun ov => ov.1 ++ '=' :: ov.2 ++ ['\n']) ++
          create_cfg rest))) =
        [] :: splitNl (('[' :: sp.1 ++ [']']) ++
          '\n' :: (sp.2.flatMap (fun ov => ov.1 ++ '=' :: ov.2 ++ ['\n']) ++
            create_cfg rest)) := by
      simp [splitNl]
    rw [hstep, splitNl_append_of_no_nl hhead, splitNl_optBlock h1.2, ih hrest]
    simp [linesOf, sectionLines]

theorem pyLines_create {doc : List (Str × List (Str × Str))}
    (hcr : '\r' ∉ create_cfg doc)
    (hg : ∀ sp ∈ doc, '\n' ∉ sp.1 ∧ ∀ ov ∈ sp.2, '\n' ∉ ov.1 ∧ '\n' ∉ ov.2) :
    pyLines (create_cfg doc) = linesOf doc := by
  unfold pyLines
  rw [univNl_id hcr, splitNl_create hg]
  have hlast : (linesOf doc ++ [[]]).getLast? = some ([] : Str) := by
    rw [List.getLast?_append_of_ne_nil _ (by simp)]
    rfl
  rw [if_pos hlast]
  simp

/-! ## Hypotheses of the exact round trip (the amended C1) -/

/-- A section name the round trip preserves: non-empty, no newline or
carriage return, not the reserved `DEFAULT` name, ASCII. -/
def validSect (s : Str) : Bool :=
  !s.isEmpty && !s.contains '\n' && !s.contains '\r' &&
    !(s == DEFAULTSECT) && asciiOnly s

/-- An option name the round trip preserves: no newline, carriage return or
delimiter (`=`/`:`), already lowercase (the reader lowercases), no leading
or trailing whitespace (the parser strips), not starting with `[` (a
section header), `#` or `;` (a comment), ASCII. -/
def validOpt (o : Str) : Bool :=
  !o.contains '\n' && !o.contains '\r' && !o.contains '=' &&
    !o.contains ':' && (lowerStr o == o) && headNonSpace o && lastNonSpaceB o &&
    !(o.head? == some '[') && !(o.head? == some '#') && !(o.head? == some ';') &&
    asciiOnly o

/-- A value the round trip preserves: no newline or carriage return, no `=`
(the claim's own hypothesis), no `%` (interpolated by `get`), no leading or
trailing whitespace (stripped by the parser), ASCII. -/
def validVal (v : Str) : Bool :=
  !v.contains '\n' && !v.contains '\r' && !v.contains '=' && !v.contains '%' &&
    (v.isEmpty || (headNonSpace v && lastNonSpaceB v)) && asciiOnly v

/-- One section entry the round trip preserves: valid name, distinct valid
option names, valid values. -/
def goodSection (sp : Str × List (Str × Str)) : Bool :=
  validSect sp.1 && nodupB (sp.2.map Prod.fst) &&
    sp.2.all (fun ov => validOpt ov.1 && validVal ov.2)

/-- A configuration dictionary the round trip reproduces exactly: distinct
section names, every section good. -/
def goodDoc (doc : List (Str × List (Str × Str))) : Bool :=
  nodupB (doc.map Prod.fst) && doc.all goodSection

theorem headNonSpace_ne_nil {s : Str} (h : headNonSpace s = true) : s ≠ [] := by
  cases s with
  | nil => exact absurd h (by decide)
  | cons c t => exact List.cons_ne_nil c t

theorem headNonSpace_append {x : Str} (y : Str) (hx : x ≠ []) :
    headNonSpace (x ++ y) = headNonSpace x := by
  cases x with
  | nil => exact absurd rfl hx
  | cons c t => rfl

theorem lastNonSpaceB_optline {o v : Str}
    (hv : v.isEmpty = true ∨ lastNonSpaceB v = true) :
    lastNonSpaceB (o ++ '=' :: v) = true := by
  unfold lastNonSpaceB
  rw [List.reverse_append, List.reverse_cons,
    headNonSpace_append _ (by simp)]
  rcases hv with h | h
  · have hnil : v = [] := by simpa [List.isEmpty_iff] using h
    rw [hnil]
    rfl
  · have hvne : v.reverse ≠ [] := by
      have := headNonSpace_ne_nil h
      simpa [List.reverse_eq_nil_iff] using this
    rw [headNonSpace_append _ hvne]
    exact h


theorem not_containsStr_of_false {l : List Str} {x : Str}
    (h : l.contains x = false) : x ∉ l := by
  intro hmem
  rw [containsStr_iff.mpr hmem] at h
  exact Bool.noConfusion h

theorem not_containsCh_of_false {l : Str} {x : Char}
    (h : l.contains x = false) : x ∉ l := by
  intro hmem
  have h2 : l.contains x = true := List.elem_iff.mpr hmem
  rw [h2] at h
  exact Bool.noConfusion h

theorem validSect_spec {s : Str} (h : validSect s = true) :
    s ≠ [] ∧ '\n' ∉ s ∧ '\r' ∉ s ∧ s ≠ DEFAULTSECT := by
  simp only [validSect, Bool.and_eq_true, Bool.not_eq_eq_eq_not, Bool.not_true] at h
  obtain ⟨⟨⟨⟨h1, h2⟩, h3⟩, h4⟩, _⟩ := h
  refine ⟨?_, not_containsCh_of_false h2, not_containsCh_of_false h3, ?_⟩
  · intro hc
    rw [hc] at h1
    exact Bool.noConfusion h1
  · intro hc
    rw [beq_eq_false_iff_ne] at h4
    exact h4 hc

theorem validOpt_spec {o : Str} (h : validOpt o = true) :
    '\n' ∉ o ∧ '\r' ∉ o ∧ '=' ∉ o ∧ ':' ∉ o ∧ lowerStr o = o ∧
      headNonSpace o = true ∧ lastNonSpaceB o = true ∧
      o.head? ≠ some '[' ∧ o.head? ≠ some '#' ∧ o.head? ≠ some ';' := by
  simp only [validOpt, Bool.and_eq_true, Bool.not_eq_eq_eq_not, Bool.not_true] at h
  obtain ⟨⟨⟨⟨⟨⟨⟨⟨⟨⟨h1, h2⟩, h3⟩, h4⟩, h5⟩, h6⟩, h7⟩, h8⟩, h9⟩, h10⟩, _⟩ := h
  refine ⟨not_containsCh_of_false h1, not_containsCh_of_false h2,
    not_containsCh_of_false h3, not_containsCh_of_false h4,
    eq_of_beq h5, h6, h7, ?_, ?_, ?_⟩
  · rw [beq_eq_false_iff_ne] at h8
    exact h8
  · rw [beq_eq_false_iff_ne] at h9
    exact h9
  · rw [beq_eq_false_iff_ne] at h10
    exact h10

theorem validVal_spec {v : Str} (h : validVal v = true) :
    '\n' ∉ v ∧ '\r' ∉ v ∧ '=' ∉ v ∧ '%' ∉ v ∧ lstrip v = v ∧ rstrip v = v := by
  simp only [validVal, Bool.and_eq_true, Bool.not_eq_eq_eq_not, Bool.not_true,
    Bool.or_eq_true] at h
  obtain ⟨⟨⟨⟨⟨h1, h2⟩, h3⟩, h4⟩, h5⟩, _⟩ := h
  refine ⟨not_containsCh_of_false h1, not_containsCh_of_false h2,
    not_containsCh_of_false h3, not_containsCh_of_false h4, ?_, ?_⟩
  · rcases h5 with h5 | h5
    · rw [show v = [] from by simpa [List.isEmpty_iff] using h5]
      rfl
    · exact lstrip_eq_self h5.1
  · rcases h5 with h5 | h5
    · rw [show v = [] from by simpa [List.isEmpty_iff] using h5]
      rfl
    · exact rstrip_eq_self h5.2

theorem strip_optline {o v : Str} (ho : validOpt o = true)
    (hv : validVal v = true) : strip (o ++ '=' :: v) = o ++ '=' :: v := by
  obtain ⟨_, _, _, _, _, h6, h7, _⟩ := validOpt_spec ho
  have hV : v.isEmpty = true ∨ lastNonSpaceB v = true := by
    simp only [validVal, Bool.and_eq_true, Bool.or_eq_true] at hv
    rcases hv.1.2 with h | h
    · exact Or.inl h
    · exact Or.inr h.2
  apply strip_eq_self
  · rw [headNonSpace_append _ (headNonSpace_ne_nil h6)]
    exact h6
  · exact lastNonSpaceB_optline hV

theorem strip_header {s : Str} :
    strip (('[' :: s) ++ [']']) = ('[' :: s) ++ [']'] := by
  apply strip_eq_self
  · rfl
  · unfold lastNonSpaceB
    rw [List.reverse_append]
    rfl

theorem lastIdxOf_append_self (l : Str) (c : Char) :
    lastIdxOf c (l ++ [c]) = some l.length := by
  induction l with
  | nil => simp [lastIdxOf]
  | cons a t ih =>
    have ih2 : lastIdxOf c (t.append [c]) = some t.length := ih
    simp only [List.cons_append, lastIdxOf, ih2, List.length_cons]

theorem sectMatch_header {s : Str} (hs : s ≠ []) :
    sectMatch (('[' :: s) ++ [']']) = some s := by
  have hsh : ('[' :: s) ++ [']'] = '[' :: (s ++ [']']) := rfl
  have hlen : 1 ≤ s.length := List.length_pos.mpr hs
  rw [hsh]
  simp only [sectMatch, if_pos rfl, lastIdxOf_append_self, if_pos hlen,
    List.take_left]
  simp

theorem sectMatch_not_bracket {c : Char} {rest : Str} (hc : ¬(c = '[')) :
    sectMatch (c :: rest) = none := by
  simp [sectMatch, hc]

theorem firstDelimIdx_optline {o : Str} (v : Str) (he : '=' ∉ o)
    (hc : ':' ∉ o) : firstDelimIdx (o ++ '=' :: v) = some o.length := by
  induction o with
  | nil => simp [firstDelimIdx]
  | cons c t ih =>
    have h1 : ¬(c = '=') := fun hx => he (by rw [hx]; exact List.mem_cons_self _ _)
    have h2 : ¬(c = ':') := fun hx => hc (by rw [hx]; exact List.mem_cons_self _ _)
    have ht1 : '=' ∉ t := fun hx => he (List.mem_cons_of_mem _ hx)
    have ht2 : ':' ∉ t := fun hx => hc (List.mem_cons_of_mem _ hx)
    have hcond : ¬((c = '=' || c = ':') = true) := by
      simp [h1, h2]
    have ih2 : firstDelimIdx (t.append ('=' :: v)) = some t.length := ih ht1 ht2
    simp only [List.cons_append, firstDelimIdx, if_neg hcond, ih2,
      List.length_cons]
    rfl

theorem optMatch_optline {o v : Str} (ho : validOpt o = true)
    (hv : validVal v = true) : optMatch (o ++ '=' :: v) = some (o, v) := by
  obtain ⟨_, _, h3, h4, _, _, h7, _⟩ := validOpt_spec ho
  obtain ⟨_, _, _, _, hl, _⟩ := validVal_spec hv
  unfold optMatch
  rw [firstDelimIdx_optline v h3 h4]
  simp only []
  have htake : (o ++ '=' :: v).take o.length = o := List.take_left o _
  have hdrop : (o ++ '=' :: v).drop (o.length + 1) = v := by
    have hsh : o ++ '=' :: v = (o ++ ['=']) ++ v := by simp
    have hlen2 : o.length + 1 = (o ++ ['=']).length := by simp
    rw [hsh, hlen2, List.drop_left]
  rw [htake, hdrop, rstrip_eq_self h7, hl]

/-! ## The three kinds of steps the writer's lines induce -/

theorem appendCurVal_empty_piece (st : PState) (o : Str)
    (hdef : st.defaults = []) :
    (appendCurVal st o []).defaults = [] ∧
      (appendCurVal st o []).hasErr = st.hasErr ∧
      (appendCurVal st o []).cursect = st.cursect ∧
      (appendCurVal st o []).indent = st.indent ∧
      joinSecs (appendCurVal st o []).sections = joinSecs st.sections := by
  obtain ⟨d, secs, cur, opt, ind, err⟩ := st
  have hd0 : d = [] := hdef
  subst hd0
  cases cur with
  | none => exact ⟨rfl, rfl, rfl, rfl, rfl⟩
  | some s =>
    by_cases hd : s = DEFAULTSECT
    · refine ⟨?_, ?_, ?_, ?_, ?_⟩ <;>
        simp [appendCurVal, getCurOpts, setCurOpts, if_pos hd, amodify]
    · refine ⟨?_, ?_, ?_, ?_, ?_⟩ <;>
        simp only [appendCurVal, getCurOpts, setCurOpts, if_neg hd] <;>
        cases halo : alookup s secs <;>
        first
          | rfl
          | exact joinSecs_aset_amodify halo

theorem stepLine_blank (st : PState) (hdef : st.defaults = []) :
    ∃ st2, stepLine st [] = .ok st2 ∧ st2.defaults = [] ∧
      st2.hasErr = st.hasErr ∧ st2.cursect = st.cursect ∧
      st2.indent = st.indent ∧ joinSecs st2.sections = joinSecs st.sections := by
  have hred : stepLine st [] =
      (match st.cursect, st.optname with
        | some _, some o =>
          if o.isEmpty then Except.ok st else Except.ok (appendCurVal st o [])
        | _, _ => Except.ok st) := rfl
  rw [hred]
  cases hcur : st.cursect with
  | none => exact ⟨st, rfl, hdef, rfl, hcur, rfl, rfl⟩
  | some s =>
    cases hopt : st.optname with
    | none => exact ⟨st, rfl, hdef, rfl, hcur, rfl, rfl⟩
    | some o =>
      simp only []
      by_cases ho : o.isEmpty = true
      · rw [if_pos ho]
        exact ⟨st, rfl, hdef, rfl, hcur, rfl, rfl⟩
      · rw [if_neg ho]
        obtain ⟨p1, p2, p3, p4, p5⟩ := appendCurVal_empty_piece st o hdef
        exact ⟨appendCurVal st o [], rfl, p1, p2, p3.trans hcur, p4, p5⟩

theorem stepLine_header (st : PState) (s : Str) (hs : s ≠ [])
    (hsD : s ≠ DEFAULTSECT) (hfresh : alookup s st.sections = none) :
    stepLine st (('[' :: s) ++ [']']) =
      .ok { st with sections := st.sections ++ [(s, [])],
                    cursect := some s, optname := none, indent := 0 } := by
  have hlt : decide (st.indent < (('[' :: s) ++ [']']).findIdx
      (fun c => !isSpaceC c)) = false := by
    have hfind : (('[' :: s) ++ [']']).findIdx (fun c => !isSpaceC c) = 0 := rfl
    rw [hfind]
    simp
  simp only [stepLine, strip_header, hlt, Bool.and_false]
  have hcomment : isCommentLine (('[' :: s) ++ [']']) = false := rfl
  rw [hcomment]
  simp only [if_false, Bool.false_eq_true, List.isEmpty_eq_true]
  rw [if_neg (by simp : ¬(('[' :: s) ++ [']'] = []))]
  rw [sectMatch_header hs]
  simp only []
  rw [if_neg hsD, hfresh]
  simp only [Option.isSome_none, Bool.false_eq_true, if_false]
  have hfind : List.findIdx (fun c => !isSpaceC c) (('[' :: s) ++ [']']) = 0 := rfl
  rw [hfind]

theorem stepLine_option (st : PState) (o v s : Str) (hcur : st.cursect = some s)
    (hsD : s ≠ DEFAULTSECT) (ho : validOpt o = true) (hv : validVal v = true)
    {done : List (Str × List Str)} (hsec : alookup s st.sections = some done)
    (hfresh : alookup o done = none) :
    stepLine st (o ++ '=' :: v) =
      .ok { st with sections := aset s (done ++ [(o, [v])]) st.sections,
                    optname := some o, indent := 0 } := by
  obtain ⟨_, _, _, _, hlow, h6, h7, h8, h9, h10⟩ := validOpt_spec ho
  obtain ⟨_, _, _, _, hvl, hvr⟩ := validVal_spec hv
  obtain ⟨c, t, hoc⟩ : ∃ c t, o = c :: t := by
    cases o with
    | nil => exact absurd h6 (by decide)
    | cons c t => exact ⟨c, t, rfl⟩
  have hshape : o ++ '=' :: v = c :: (t ++ '=' :: v) := by rw [hoc]; rfl
  have hcommentB : isCommentLine (o ++ '=' :: v) = false := by
    rw [hshape]
    simp only [isCommentLine]
    rw [hoc] at h9 h10
    simp only [List.head?] at h9 h10
    have hc9 : ¬(c = '#') := fun hx => h9 (by rw [hx])
    have hc10 : ¬(c = ';') := fun hx => h10 (by rw [hx])
    simp [hc9, hc10]
  have hfind : (o ++ '=' :: v).findIdx (fun c2 => !isSpaceC c2) = 0 := by
    rw [hshape]
    have hcs : headNonSpace (c :: (t ++ '=' :: v)) = true := by
      rw [← hshape, headNonSpace_append _ (headNonSpace_ne_nil h6), hoc]
      rw [hoc] at h6
      exact h6
    simp only [headNonSpace] at hcs
    simp [List.findIdx_cons, hcs]
  have hlt : decide (st.indent < (o ++ '=' :: v).findIdx
      (fun c2 => !isSpaceC c2)) = false := by
    rw [hfind]
    simp
  have hsectnone : sectMatch (o ++ '=' :: v) = none := by
    rw [hshape]
    apply sectMatch_not_bracket
    rw [hoc] at h8
    simp only [List.head?] at h8
    exact fun hx => h8 (by rw [hx])
  simp only [stepLine, strip_optline ho hv, hcommentB, hlt, Bool.and_false]
  simp only [if_false, Bool.false_eq_true, List.isEmpty_eq_true]
  rw [if_neg (by rw [hshape]; simp : ¬(o ++ '=' :: v = []))]
  rw [hsectnone, hcur]
  simp only []
  rw [optMatch_optline ho hv]
  simp only [stepOption]
  have hoe : o.isEmpty = false := by
    rw [hoc]
    rfl
  rw [hoe]
  simp only [Bool.false_eq_true, if_false]
  rw [hfind]
  have hget : getCurOpts
      { defaults := st.defaults, sections := st.sections, cursect := some s,
        optname := st.optname, indent := 0, hasErr := st.hasErr } = some done := by
    simp only [getCurOpts, if_neg hsD]
    exact hsec
  rw [hget]
  simp only []
  rw [rstrip_eq_self h7, hlow, hfresh]
  simp only [Option.isSome_none, Bool.false_eq_true, if_false]
  have hstrip : strip v = v := by
    unfold strip
    rw [hvr, hvl]
  rw [hstrip]
  simp only [setCurOpts, if_neg hsD]

/-! ## Running the parser over the writer's lines -/

theorem readLines_append (a b : List Str) (st : PState) :
    readLines (a ++ b) st =
      match readLines a st with
      | .ok st2 => readLines b st2
      | .error e => .error e := by
  induction a generalizing st with
  | nil => rfl
  | cons l rest ih =>
    simp only [List.cons_append, readLines]
    cases hstep : stepLine st l with
    | ok st2 =>
      simp only []
      exact ih st2
    | error e => rfl

/-- The value lists the parser stores for freshly written options. -/
def wrapVals (opts : List (Str × Str)) : List (Str × List Str) :=
  opts.map (fun ov => (ov.1, [ov.2]))

theorem joinOpts_wrapVals {opts : List (Str × Str)}
    (h : ∀ ov ∈ opts, validVal ov.2 = true) :
    joinOpts (wrapVals opts) = opts := by
  induction opts with
  | nil => rfl
  | cons ov rest ih =>
    have hv := (validVal_spec (h ov (List.mem_cons_self _ _))).2.2.2.2.2
    have ihh := ih (fun o2 h2 => h o2 (List.mem_cons_of_mem _ h2))
    simp only [wrapVals, List.map_cons, joinOpts, joinVal_single, hv] at ihh ⊢
    rw [ihh]

theorem goodSection_spec {sp : Str × List (Str × Str)}
    (h : goodSection sp = true) :
    validSect sp.1 = true ∧ nodupB (sp.2.map Prod.fst) = true ∧
      ∀ ov ∈ sp.2, validOpt ov.1 = true ∧ validVal ov.2 = true := by
  simp only [goodSection, Bool.and_eq_true, List.all_eq_true] at h
  refine ⟨h.1.1, h.1.2, fun ov hov => ?_⟩
  have := h.2 ov hov
  simpa [Bool.and_eq_true] using this

theorem goodDoc_spec {doc : List (Str × List (Str × Str))}
    (h : goodDoc doc = true) :
    nodupB (doc.map Prod.fst) = true ∧ ∀ sp ∈ doc, goodSection sp = true := by
  simp only [goodDoc, Bool.and_eq_true, List.all_eq_true] at h
  exact ⟨h.1, h.2⟩

theorem alookup_none_of_joinSecs_eq
    {secs1 secs2 : List (Str × List (Str × List Str))}
    (h : joinSecs secs1 = joinSecs secs2) {s : Str}
    (hn : alookup s secs2 = none) : alookup s secs1 = none := by
  rw [alookup_eq_none_iff] at hn ⊢
  intro e he
  have hkeys : secs1.map Prod.fst = secs2.map Prod.fst := by
    rw [← joinSecs_fst, h, joinSecs_fst]
  have hmem : e.1 ∈ secs2.map Prod.fst := by
    rw [← hkeys]
    exact List.mem_map_of_mem Prod.fst he
  obtain ⟨e2, he2, heq⟩ := List.mem_map.mp hmem
  rw [← heq]
  exact hn e2 he2

theorem readLines_optLines (opts2 : List (Str × Str)) (st : PState) (s : Str)
    (base : List (Str × List (Str × List Str))) (done : List (Str × List Str))
    (hcur : st.cursect = some s) (hsD : s ≠ DEFAULTSECT)
    (hsec : st.sections = base ++ [(s, done)]) (hbase : alookup s base = none)
    (hdef : st.defaults = []) (herr : st.hasErr = false) (hind : st.indent = 0)
    (hvalid : ∀ ov ∈ opts2, validOpt ov.1 = true ∧ validVal ov.2 = true)
    (hfresh : ∀ ov ∈ opts2, alookup ov.1 done = none)
    (hnodup : nodupB (opts2.map Prod.fst) = true) :
    ∃ st2, readLines (opts2.map optLine) st = .ok st2 ∧
      st2.defaults = [] ∧ st2.hasErr = false ∧ st2.cursect = some s ∧
      st2.indent = 0 ∧ st2.sections = base ++ [(s, done ++ wrapVals opts2)] := by
  induction opts2 generalizing st done with
  | nil =>
    refine ⟨st, rfl, hdef, herr, hcur, hind, ?_⟩
    rw [hsec]
    simp [wrapVals]
  | cons ov rest ih =>
    obtain ⟨hvo, hvv⟩ := hvalid ov (List.mem_cons_self _ _)
    have hlook : alookup s st.sections = some done := by
      rw [hsec]
      exact alookup_append_last_self hbase
    have hstep := stepLine_option st ov.1 ov.2 s hcur hsD hvo hvv hlook
      (hfresh ov (List.mem_cons_self _ _))
    have hsec1 : (aset s (done ++ [(ov.1, [ov.2])]) st.sections) =
        base ++ [(s, done ++ [(ov.1, [ov.2])])] := by
      rw [hsec]
      exact aset_append_of_none _ _ hbase
    have hfresh1 : ∀ o2 ∈ rest, alookup o2.1 (done ++ [(ov.1, [ov.2])]) = none := by
      intro o2 h2
      have hne : o2.1 ≠ ov.1 := by
        intro hc
        have hmem : ov.1 ∈ rest.map Prod.fst := by
          rw [← hc]
          exact List.mem_map_of_mem Prod.fst h2
        simp only [List.map_cons, nodupB, Bool.and_eq_true] at hnodup
        exact not_containsStr hnodup.1 hmem
      exact alookup_append_last_ne (hfresh o2 (List.mem_cons_of_mem _ h2)) hne.symm
    have hnodup1 : nodupB (rest.map Prod.fst) = true := by
      simp only [List.map_cons, nodupB, Bool.and_eq_true] at hnodup
      exact hnodup.2
    obtain ⟨st2, hrun, p1, p2, p3, p4, p5⟩ :=
      ih
        { st with
            sections := aset s (done ++ [(ov.1, [ov.2])]) st.sections,
            optname := some ov.1,
            indent := 0 }
        (done ++ [(ov.1, [ov.2])]) hcur hsec1 hdef herr rfl
        (fun o2 h2 => hvalid o2 (List.mem_cons_of_mem _ h2)) hfresh1 hnodup1
    refine ⟨st2, ?_, p1, p2, p3, p4, ?_⟩
    · simp only [List.map_cons, readLines, optLine]
      rw [hstep]
      simp only []
      exact hrun
    · rw [p5]
      simp [wrapVals]

theorem readLines_sections (doc2 : List (Str × List (Str × Str)))
    (st : PState) (hdef : st.defaults = []) (herr : st.hasErr = false)
    (hgood : ∀ sp ∈ doc2, goodSection sp = true)
    (hfresh : ∀ sp ∈ doc2, alookup sp.1 st.sections = none)
    (hnodup : nodupB (doc2.map Prod.fst) = true) :
    ∃ st2, readLines (linesOf doc2) st = .ok st2 ∧ st2.defaults = [] ∧
      st2.hasErr = false ∧
      joinSecs st2.sections = joinSecs st.sections ++ doc2 := by
  induction doc2 generalizing st with
  | nil => exact ⟨st, rfl, hdef, herr, by simp [linesOf]⟩
  | cons sp rest ih =>
    obtain ⟨hvs, hnodupO, hvalidO⟩ := goodSection_spec (hgood sp (List.mem_cons_self _ _))
    obtain ⟨hsne, _, _, hsD⟩ := validSect_spec hvs
    obtain ⟨stB, hBrun, hBdef, hBerr, hBcur, hBind, hBjoin⟩ := stepLine_blank st hdef
    have hBfresh : alookup sp.1 stB.sections = none :=
      alookup_none_of_joinSecs_eq hBjoin (hfresh sp (List.mem_cons_self _ _))
    have hHrun := stepLine_header stB sp.1 hsne hsD hBfresh
    obtain ⟨st3, hOrun, hOdef, hOerr, hOcur, hOind, hOsec⟩ :=
      readLines_optLines sp.2
        { stB with sections := stB.sections ++ [(sp.1, [])],
                   cursect := some sp.1, optname := none, indent := 0 }
        sp.1 stB.sections [] rfl hsD rfl hBfresh hBdef (hBerr.trans herr) rfl hvalidO
        (fun ov _ => rfl) hnodupO
    have hfresh3 : ∀ sp2 ∈ rest, alookup sp2.1 st3.sections = none := by
      intro sp2 h2
      rw [hOsec]
      have hne : sp.1 ≠ sp2.1 := by
        intro hc
        have hmem : sp.1 ∈ rest.map Prod.fst := by
          rw [hc]
          exact List.mem_map_of_mem Prod.fst h2
        simp only [List.map_cons, nodupB, Bool.and_eq_true] at hnodup
        exact not_containsStr hnodup.1 hmem
      have hB2 : alookup sp2.1 stB.sections = none :=
        alookup_none_of_joinSecs_eq hBjoin (hfresh sp2 (List.mem_cons_of_mem _ h2))
      exact alookup_append_last_ne hB2 hne
    have hnodup3 : nodupB (rest.map Prod.fst) = true := by
      simp only [List.map_cons, nodupB, Bool.and_eq_true] at hnodup
      exact hnodup.2
    obtain ⟨st4, hRrun, hRdef, hRerr, hRjoin⟩ :=
      ih st3 hOdef hOerr (fun sp2 h2 => hgood sp2 (List.mem_cons_of_mem _ h2))
        hfresh3 hnodup3
    refine ⟨st4, ?_, hRdef, hRerr, ?_⟩
    · have hlines : linesOf (sp :: rest) =
          [] :: ((('[' :: sp.1) ++ [']']) :: (sp.2.map optLine ++ linesOf rest)) := by
        simp [linesOf, sectionLines]
      rw [hlines]
      simp only [readLines]
      rw [hBrun]
      simp only []
      rw [hHrun]
      simp only []
      rw [readLines_append]
      rw [hOrun]
      simp only []
      exact hRrun
    · rw [hRjoin, hOsec]
      have hwrap : joinSecs (stB.sections ++ [(sp.1, [] ++ wrapVals sp.2)]) =
          joinSecs stB.sections ++ [(sp.1, sp.2)] := by
        simp only [joinSecs, List.map_append, List.map_cons, List.map_nil,
          List.nil_append]
        rw [joinOpts_wrapVals (fun ov hov => (hvalidO ov hov).2)]
      rw [hwrap, hBjoin]
      simp

/-! ## The get stage returns stored values unchanged -/

theorem interpInner_no_percent (mp : List (Str × Str))
    (recur : Str → Except CfgError Str) {v : Str} (h : '%' ∉ v) :
    interpInner mp recur .plain v = .ok v := by
  induction v with
  | nil => rfl
  | cons c rest ih =>
    have hc : ¬(c = '%') := fun hx => h (by rw [hx]; exact List.mem_cons_self _ _)
    have hr : '%' ∉ rest := fun hx => h (List.mem_cons_of_mem _ hx)
    rw [interpInner.eq_def]
    simp only [if_neg hc]
    rw [ih hr]

theorem interpolate_no_percent (mp : List (Str × Str)) {v : Str}
    (h : '%' ∉ v) : interpolate mp 10 v = .ok v := by
  simp only [interpolate]
  exact interpInner_no_percent mp _ h

theorem cfg_get_id {p : Parsed} {s : Str} {opts : List (Str × Str)}
    (hsD : ¬(s = DEFAULTSECT)) (hpd : p.defaults = [])
    (hsec : alookup s p.sections = some opts)
    (hnodup : nodupB (opts.map Prod.fst) = true)
    (hvalid : ∀ ov ∈ opts, validOpt ov.1 = true ∧ validVal ov.2 = true) :
    ∀ ov ∈ opts, cfg_get p s ov.1 = .ok ov.2 := by
  intro ov hov
  obtain ⟨_, _, _, _, hlow, _⟩ := validOpt_spec (hvalid ov hov).1
  obtain ⟨_, _, _, hnp, _, _⟩ := validVal_spec (hvalid ov hov).2
  simp only [cfg_get, if_neg hsD, hsec]
  simp only [hpd, List.append_nil, hlow]
  rw [nodupB_alookup_self hnodup ov hov]
  exact interpolate_no_percent _ hnp

theorem optionKeys_nil_defaults (opts : List (Str × Str)) :
    optionKeys [] opts = opts.map Prod.fst := by
  simp [optionKeys]

theorem getOptions_sub (p : Parsed) (s : Str) (opts : List (Str × Str))
    (hget : ∀ ov ∈ opts, cfg_get p s ov.1 = .ok ov.2) :
    ∀ sub : List (Str × Str), (∀ ov ∈ sub, ov ∈ opts) →
      getOptions p s (sub.map Prod.fst) = .ok sub := by
  intro sub hsub
  induction sub with
  | nil => rfl
  | cons ov rest ih =>
    simp only [List.map_cons, getOptions]
    rw [hget ov (hsub ov (List.mem_cons_self _ _))]
    simp only []
    rw [ih (fun o2 h2 => hsub o2 (List.mem_cons_of_mem _ h2))]

theorem getSections_sub (p : Parsed)
    (l : List (Str × List (Str × Str)))
    (h : ∀ sp ∈ l, getOptions p sp.1 (optionKeys p.defaults sp.2) = .ok sp.2) :
    getSections p l = .ok l := by
  induction l with
  | nil => rfl
  | cons sp rest ih =>
    simp only [getSections]
    rw [h sp (List.mem_cons_self _ _)]
    simp only []
    rw [ih (fun s2 h2 => h s2 (List.mem_cons_of_mem _ h2))]

/-! ## Character-level side conditions of the writer's output -/

theorem create_no_cr {doc : List (Str × List (Str × Str))}
    (h : goodDoc doc = true) : '\r' ∉ create_cfg doc := by
  obtain ⟨_, hgood⟩ := goodDoc_spec h
  intro hmem
  simp only [create_cfg, List.mem_flatMap] at hmem
  obtain ⟨sp, hsp, hmem⟩ := hmem
  obtain ⟨hvs, _, hvalidO⟩ := goodSection_spec (hgood sp hsp)
  obtain ⟨_, _, hscr, _⟩ := validSect_spec hvs
  rcases List.mem_append.mp hmem with hmem | hmem
  · rcases List.mem_cons.mp hmem with hmem | hmem
    · exact absurd hmem (by decide)
    · rcases List.mem_cons.mp hmem with hmem | hmem
      · exact absurd hmem (by decide)
      · exact hscr hmem
  · rcases List.mem_cons.mp hmem with hmem | hmem
    · exact absurd hmem (by decide)
    · rcases List.mem_cons.mp hmem with hmem | hmem
      · exact absurd hmem (by decide)
      · simp only [List.mem_flatMap] at hmem
        obtain ⟨ov, hov, hmem⟩ := hmem
        obtain ⟨_, hocr, _⟩ := validOpt_spec (hvalidO ov hov).1
        obtain ⟨_, hvcr, _⟩ := validVal_spec (hvalidO ov hov).2
        rcases List.mem_append.mp hmem with hmem | hmem
        · rcases List.mem_append.mp hmem with hmem | hmem
          · exact hocr hmem
          · rcases List.mem_cons.mp hmem with hmem | hmem
            · exact absurd hmem (by decide)
            · exact hvcr hmem
        · exact absurd (List.mem_singleton.mp hmem) (by decide)

theorem create_no_nl {doc : List (Str × List (Str × Str))}
    (h : goodDoc doc = true) :
    ∀ sp ∈ doc, '\n' ∉ sp.1 ∧ ∀ ov ∈ sp.2, '\n' ∉ ov.1 ∧ '\n' ∉ ov.2 := by
  obtain ⟨_, hgood⟩ := goodDoc_spec h
  intro sp hsp
  obtain ⟨hvs, _, hvalidO⟩ := goodSection_spec (hgood sp hsp)
  obtain ⟨_, hsnl, _, _⟩ := validSect_spec hvs
  refine ⟨hsnl, fun ov hov => ?_⟩
  obtain ⟨honl, _⟩ := validOpt_spec (hvalidO ov hov).1
  obtain ⟨hvnl, _⟩ := validVal_spec (hvalidO ov hov).2
  exact ⟨honl, hvnl⟩

/-- C1 counterexample: the document `{s: {A: v}}` satisfies the claim's
hypothesis (its values contain no `=` and no newline), yet writing it with
`create_cfg` and reading back with `read_cfg` yields option name `a`, not
`A` — the round trip as claimed fails. -/
theorem create_read_cfg_not_inverse :
    (∀ sp ∈ [(strL "s", [(strL "A", strL "v")])], ∀ ov ∈ sp.2,
      '=' ∉ ov.2 ∧ '\n' ∉ ov.2) ∧
      read_cfg (some (create_cfg [(strL "s", [(strL "A", strL "v")])])) =
        .ok [(strL "s", [(strL "a", strL "v")])] ∧
      read_cfg (some (create_cfg [(strL "s", [(strL "A", strL "v")])])) ≠
        .ok [(strL "s", [(strL "A", strL "v")])] := by
  refine ⟨by decide, rfl, by decide⟩

/-- C1 amended: writing a configuration dictionary with `create_cfg` and
reading it back with `read_cfg` returns the same sections, options and
values string-for-string, provided (`goodDoc`) the section names are
distinct, non-empty, not `DEFAULT` and free of newlines; the option names
within each section are distinct, already lowercase, free of delimiters,
newlines and surrounding whitespace, and do not begin a comment or a
section header; and the values contain no `=` or newline (the claim's own
hypothesis) and additionally no `%`, no carriage return and no leading or
trailing whitespace; all text ASCII. -/
theorem create_read_roundtrip (cfg_dict : List (Str × List (Str × Str)))
    (h : goodDoc cfg_dict = true) :
    read_cfg (some (create_cfg cfg_dict)) = .ok cfg_dict := by
  obtain ⟨hnodup, hgood⟩ := goodDoc_spec h
  obtain ⟨st2, hrun, hdef2, herr2, hjoin⟩ :=
    readLines_sections cfg_dict initPState rfl rfl hgood
      (fun sp _ => rfl) hnodup
  have hjoin2 : joinSecs st2.sections = cfg_dict := by
    rw [hjoin]
    simp [initPState, joinSecs]
  have hp : config_read (some (create_cfg cfg_dict)) =
      .ok { defaults := [], sections := cfg_dict } := by
    simp only [config_read]
    rw [pyLines_create (create_no_cr h) (create_no_nl h), hrun]
    simp only []
    rw [herr2]
    simp only [Bool.false_eq_true, if_false]
    rw [hdef2, hjoin2]
    rfl
  simp only [read_cfg]
  rw [hp]
  simp only []
  apply getSections_sub
  intro sp hsp
  obtain ⟨hvs, hnodupO, hvalidO⟩ := goodSection_spec (hgood sp hsp)
  obtain ⟨_, _, _, hsD⟩ := validSect_spec hvs
  have hsec : alookup sp.1 cfg_dict = some sp.2 := nodupB_alookup_self hnodup sp hsp
  show getOptions { defaults := [], sections := cfg_dict } sp.1
      (optionKeys [] sp.2) = .ok sp.2
  rw [optionKeys_nil_defaults]
  exact getOptions_sub _ sp.1 sp.2
    (cfg_get_id hsD rfl hsec hnodupO hvalidO) sp.2 (fun ov hov => hov)

theorem create_read_roundtrip_witness :
    read_cfg (some (create_cfg [(strL "sec one", [(strL "a", strL "1"),
        (strL "key b", strL "x  y:z")]), (strL "two", [])])) =
      .ok [(strL "sec one", [(strL "a", strL "1"),
        (strL "key b", strL "x  y:z")]), (strL "two", [])] :=
  create_read_roundtrip _ (by decide)
